import Mathlib

/-!
Verification of the DS346_Project record-normalization / deduplication
pipeline (`WebScraper/wrangling.py`) and the preprocessing / vectorization
pipeline (`Preprocessor/data_preprocessor.py`).

The Python source is shallowly embedded: strings are `List Char`, Python
dictionaries holding the record fields become explicit structures, the
BeautifulSoup `html.parser` tree builder and serializer are modelled by an
executable lexer / stack builder / printer over a node datatype, `hashlib.md5`
is implemented in full over `Nat` arithmetic (mod 2^32), and the relevant
`re.sub` calls are modelled by direct character-level scans with the same
leftmost, non-overlapping semantics.
-/

set_option maxHeartbeats 3000000
set_option maxRecDepth 100000
set_option linter.unusedVariables false

namespace DS346

/-- Python strings are modelled as lists of characters. -/
abbrev Str := List Char

/-- Whitespace as matched by Python's `re` pattern `\s` on `str` (also the
`str.isspace` / `str.strip` character class): ASCII whitespace plus the
Unicode space characters. -/
def pySpace (c : Char) : Bool :=
  c.toNat = 32 || c.toNat = 9 || c.toNat = 10 || c.toNat = 13 ||
  c.toNat = 11 || c.toNat = 12 ||
  (28 ≤ c.toNat && c.toNat ≤ 31) || c.toNat = 0x85 || c.toNat = 0xa0 ||
  c.toNat = 0x1680 || (0x2000 ≤ c.toNat && c.toNat ≤ 0x200a) ||
  c.toNat = 0x2028 || c.toNat = 0x2029 || c.toNat = 0x202f ||
  c.toNat = 0x205f || c.toNat = 0x3000

theorem dropWhile_length_le {α : Type} (p : α → Bool) (l : List α) :
    (l.dropWhile p).length ≤ l.length := by
  induction l with
  | nil => simp [List.dropWhile]
  | cons a t ih =>
    by_cases h : p a
    · simp only [List.dropWhile, h]
      exact Nat.le_succ_of_le ih
    · simp [List.dropWhile, h]

/-- Scanner for `re.sub(r'\s+', ' ', s)`: the flag records whether the scan
is inside a whitespace run (whose single replacement space was already
emitted). -/
def collapseGo : Bool → Str → Str
  | _, [] => []
  | inRun, c :: cs =>
    if pySpace c then
      (if inRun then collapseGo true cs else ' ' :: collapseGo true cs)
    else c :: collapseGo false cs

/-- Model of `re.sub(r'\s+', ' ', s)`: every maximal run of whitespace is
replaced by a single space. -/
def collapseWs (s : Str) : Str := collapseGo false s

/-- Model of Python `str.strip()` (with the `pySpace` whitespace class). -/
def pyStrip (s : Str) : Str :=
  ((s.dropWhile pySpace).reverse.dropWhile pySpace).reverse

/-- ASCII model of Python `str.lower()`. -/
def pyLower (s : Str) : Str := s.map Char.toLower

/-- Containment test for a character, mirroring Python's `in` on `str`. -/
def strContains (s : Str) (c : Char) : Bool := s.contains c

/-! ## Model of `html.parser` + BeautifulSoup tree building

`wrangling.py` feeds every string through `BeautifulSoup(s, 'html.parser')`.
We model the tolerant lexer of `html.parser` (with `convert_charrefs=True`)
and BeautifulSoup's stack tree builder.  The `script`/`style` CDATA modes are
not modelled (no claim exercises them). -/

/-- Decimal digit test (ASCII). -/
def isDigitC (c : Char) : Bool := 48 ≤ c.toNat && c.toNat ≤ 57

/-- Hexadecimal digit test (ASCII). -/
def isHexC (c : Char) : Bool :=
  isDigitC c || (97 ≤ c.toNat && c.toNat ≤ 102) || (65 ≤ c.toNat && c.toNat ≤ 70)

/-- Numeric value of a hexadecimal digit. -/
def hexVal (c : Char) : Nat :=
  if isDigitC c then c.toNat - 48
  else if 97 ≤ c.toNat && c.toNat ≤ 102 then c.toNat - 97 + 10
  else c.toNat - 65 + 10

/-- Value of a digit string interpreted in base `b`. -/
def digitsVal (b : Nat) (s : Str) : Nat := s.foldl (fun acc c => acc * b + hexVal c) 0

/-- Character for a numeric character reference, `U+FFFD` when out of range
(model of `html.unescape` on numeric references). -/
def charRefChar (n : Nat) : Char :=
  if h : n.isValidChar then Char.ofNat n else '�'

/-- The named character references the model decodes (the serializer below
only ever produces these). -/
def namedEntity (s : Str) : Option Char :=
  if s = "amp".data then some '&'
  else if s = "lt".data then some '<'
  else if s = "gt".data then some '>'
  else if s = "quot".data then some '"'
  else if s = "apos".data then some '\'' else none

theorem dropWhile_cons_length {α : Type} {p : α → Bool} {l r : List α} {c : α}
    (h : l.dropWhile p = c :: r) : r.length < l.length := by
  have h1 := dropWhile_length_le p l
  have h2 := congrArg List.length h
  simp only [List.length_cons] at h2
  omega

/-- Scanner states for character-reference decoding: at top level, just
after `&`, after `&#`, inside hex digits (with the `x`/`X` marker and the
digits seen), inside decimal digits, or inside an entity name. -/
inductive EntSt where
  | base
  | amp
  | hash
  | hexm (mk : Char) (acc : Str)
  | dec (acc : Str)
  | nam (acc : Str)

/-- Scanner for character-reference decoding (model of `html.unescape` as
used by `html.parser` for text data and attribute values): `&name;` for the
entities above, `&#d;` and `&#xH;` numeric references; anything else is left
as literal text.  Accumulators are kept reversed. -/
def unescGo : EntSt → Str → Str
  | .base, [] => []
  | .base, '&' :: r => unescGo .amp r
  | .base, c :: r => c :: unescGo .base r
  | .amp, [] => ['&']
  | .amp, '#' :: r => unescGo .hash r
  | .amp, '&' :: r => '&' :: unescGo .amp r
  | .amp, c :: r =>
    if c.isAlpha then unescGo (.nam [c]) r else '&' :: c :: unescGo .base r
  | .hash, [] => ['&', '#']
  | .hash, 'x' :: r => unescGo (.hexm 'x' []) r
  | .hash, 'X' :: r => unescGo (.hexm 'X' []) r
  | .hash, '&' :: r => '&' :: '#' :: unescGo .amp r
  | .hash, c :: r =>
    if isDigitC c then unescGo (.dec [c]) r
    else '&' :: '#' :: c :: unescGo .base r
  | .hexm mk acc, [] => '&' :: '#' :: mk :: acc.reverse
  | .hexm mk acc, c :: r =>
    if isHexC c then unescGo (.hexm mk (c :: acc)) r
    else if c = ';' && !acc.isEmpty then
      charRefChar (digitsVal 16 acc.reverse) :: unescGo .base r
    else if c = '&' then '&' :: '#' :: mk :: acc.reverse ++ unescGo .amp r
    else '&' :: '#' :: mk :: acc.reverse ++ c :: unescGo .base r
  | .dec acc, [] => '&' :: '#' :: acc.reverse
  | .dec acc, c :: r =>
    if isDigitC c then unescGo (.dec (c :: acc)) r
    else if c = ';' && !acc.isEmpty then
      charRefChar (digitsVal 10 acc.reverse) :: unescGo .base r
    else if c = '&' then '&' :: '#' :: acc.reverse ++ unescGo .amp r
    else '&' :: '#' :: acc.reverse ++ c :: unescGo .base r
  | .nam acc, [] => '&' :: acc.reverse
  | .nam acc, c :: r =>
    if c.isAlpha then unescGo (.nam (c :: acc)) r
    else if c = ';' then
      (match namedEntity acc.reverse with
       | some ch => ch :: unescGo .base r
       | Option.none => '&' :: acc.reverse ++ ';' :: unescGo .base r)
    else if c = '&' then '&' :: acc.reverse ++ unescGo .amp r
    else '&' :: acc.reverse ++ c :: unescGo .base r

/-- Decode character references in a string. -/
def unescEntities (s : Str) : Str := unescGo .base s

/-- Characters allowed to continue an attribute name
(`html.parser` tolerant attribute scanning). -/
def attrNameChar (c : Char) : Bool :=
  !(pySpace c || c = '/' || c = '=' || c = '>')

/-- Characters allowed in an unquoted attribute value. -/
def unquotedValChar (c : Char) : Bool := !(pySpace c || c = '>')

/-- Tokens of the `html.parser` lexer. -/
inductive HTok where
  | txt (c : Char)
  | tagOpen (name : Str) (attrs : List (Str × Option Str)) (selfClosing : Bool)
  | tagClose (name : Str)
  | cmt (s : Str)
  | dtd (s : Str)
  | pri (s : Str)
deriving DecidableEq

/-- Characters that may continue a tag name (`html.parser` tolerant tag
scanning: anything but whitespace, `/`, `>`, NUL). -/
def tagNameChar (c : Char) : Bool :=
  !(c = '\t' || c = '\n' || c = '\r' || c.toNat = 12 || c = ' ' ||
    c = '/' || c = '>' || c.toNat = 0)

/-- Lexer states of the `html.parser` model: top-level text, comment,
declaration, processing instruction, end-tag name / end-tag skip-to-`>`, and
the start-tag machine (tag name, between attributes, attribute name, after an
attribute name, after `=`, quoted value, unquoted value).  The start-tag
states carry the raw characters consumed since the `<` (reversed) so that an
unterminated tag at end of input can be replayed as literal text, the way
`html.parser` recovers; all other accumulators are reversed as well. -/
inductive LexSt where
  | txt
  | cmt (acc : Str)
  | dtd (acc : Str)
  | pii (acc : Str)
  | closeNm (acc : Str)
  | closeSkip (nm : Str)
  | tagNm (acc raw : Str)
  | attrs (nm : Str) (as : List (Str × Option Str)) (raw : Str)
  | attrNm (nm : Str) (as : List (Str × Option Str)) (raw acc : Str)
  | afterNm (nm : Str) (as : List (Str × Option Str)) (raw anm : Str)
  | valSkip (nm : Str) (as : List (Str × Option Str)) (raw anm : Str)
  | quotedV (nm : Str) (as : List (Str × Option Str)) (raw anm : Str)
      (q : Char) (vacc : Str)
  | unqV (nm : Str) (as : List (Str × Option Str)) (raw anm vacc : Str)
  | slashA (nm : Str) (as : List (Str × Option Str)) (raw : Str)

/-- Recovery for a start tag left unterminated at end of input: the `<` and
everything after it are replayed as literal text. -/
def flatFail (raw : Str) : List HTok := .txt '<' :: raw.reverse.map HTok.txt

/-- The `html.parser` lexer as a character-by-character state machine: text
is emitted character by character (character references are decoded later,
when runs of text are flushed into text nodes), while tags, comments,
declarations and processing instructions become single tokens; a `<` that
does not open one of those constructs is literal text, tag and attribute
names are lower-cased, and attribute values are entity-decoded. -/
def lexGo : LexSt → Str → List HTok
  | .txt, [] => []
  | .txt, '<' :: '!' :: '-' :: '-' :: r => lexGo (.cmt []) r
  | .txt, '<' :: '!' :: r => lexGo (.dtd []) r
  | .txt, '<' :: '?' :: r => lexGo (.pii []) r
  | .txt, '<' :: '/' :: c :: r =>
    if c.isAlpha then lexGo (.closeNm [c]) r
    else .txt '<' :: .txt '/' :: lexGo .txt (c :: r)
  | .txt, ['<', '/'] => [.txt '<', .txt '/']
  | .txt, '<' :: c :: r =>
    if c.isAlpha then lexGo (.tagNm [c] [c]) r
    else .txt '<' :: lexGo .txt (c :: r)
  | .txt, ['<'] => [.txt '<']
  | .txt, c :: r => .txt c :: lexGo .txt r
  | .cmt acc, '-' :: '-' :: '>' :: r => .cmt acc.reverse :: lexGo .txt r
  | .cmt acc, [] => [.cmt acc.reverse]
  | .cmt acc, c :: r => lexGo (.cmt (c :: acc)) r
  | .dtd acc, [] => [.dtd acc.reverse]
  | .dtd acc, '>' :: r => .dtd acc.reverse :: lexGo .txt r
  | .dtd acc, c :: r => lexGo (.dtd (c :: acc)) r
  | .pii acc, [] => [.pri acc.reverse]
  | .pii acc, '>' :: r => .pri acc.reverse :: lexGo .txt r
  | .pii acc, c :: r => lexGo (.pii (c :: acc)) r
  | .closeNm _, [] => []
  | .closeNm acc, c :: r =>
    if tagNameChar c then lexGo (.closeNm (c :: acc)) r
    else if c = '>' then .tagClose (pyLower acc.reverse) :: lexGo .txt r
    else lexGo (.closeSkip (pyLower acc.reverse)) r
  | .closeSkip _, [] => []
  | .closeSkip nm, '>' :: r => .tagClose nm :: lexGo .txt r
  | .closeSkip nm, _ :: r => lexGo (.closeSkip nm) r
  | .tagNm _ raw, [] => flatFail raw
  | .tagNm acc raw, c :: r =>
    if tagNameChar c then lexGo (.tagNm (c :: acc) (c :: raw)) r
    else if c = '>' then
      .tagOpen (pyLower acc.reverse) [] false :: lexGo .txt r
    else if c = '/' then lexGo (.slashA (pyLower acc.reverse) [] ('/' :: raw)) r
    else lexGo (.attrs (pyLower acc.reverse) [] (c :: raw)) r
  | .attrs _ _ raw, [] => flatFail raw
  | .attrs nm as _, '>' :: r => .tagOpen nm as.reverse false :: lexGo .txt r
  | .attrs nm as raw, '/' :: r => lexGo (.slashA nm as ('/' :: raw)) r
  | .attrs nm as raw, c :: r =>
    if pySpace c then lexGo (.attrs nm as (c :: raw)) r
    else lexGo (.attrNm nm as (c :: raw) [c]) r
  | .attrNm _ _ raw _, [] => flatFail raw
  | .attrNm nm as raw acc, c :: r =>
    if attrNameChar c then lexGo (.attrNm nm as (c :: raw) (c :: acc)) r
    else if c = '=' then lexGo (.valSkip nm as ('=' :: raw) (pyLower acc.reverse)) r
    else if pySpace c then lexGo (.afterNm nm as (c :: raw) (pyLower acc.reverse)) r
    else if c = '>' then
      .tagOpen nm ((pyLower acc.reverse, Option.none) :: as).reverse false ::
        lexGo .txt r
    else lexGo (.slashA nm ((pyLower acc.reverse, Option.none) :: as)
      ('/' :: raw)) r
  | .afterNm _ _ raw _, [] => flatFail raw
  | .afterNm nm as raw anm, c :: r =>
    if pySpace c then lexGo (.afterNm nm as (c :: raw) anm) r
    else if c = '=' then lexGo (.valSkip nm as ('=' :: raw) anm) r
    else if c = '>' then
      .tagOpen nm ((anm, Option.none) :: as).reverse false :: lexGo .txt r
    else if c = '/' then
      lexGo (.slashA nm ((anm, Option.none) :: as) ('/' :: raw)) r
    else lexGo (.attrNm nm ((anm, Option.none) :: as) (c :: raw) [c]) r
  | .valSkip _ _ raw _, [] => flatFail raw
  | .valSkip nm as raw anm, '"' :: r =>
    lexGo (.quotedV nm as ('"' :: raw) anm '"' []) r
  | .valSkip nm as raw anm, '\'' :: r =>
    lexGo (.quotedV nm as ('\'' :: raw) anm '\'' []) r
  | .valSkip nm as raw anm, c :: r =>
    if pySpace c then lexGo (.valSkip nm as (c :: raw) anm) r
    else if c = '>' then
      .tagOpen nm ((anm, some []) :: as).reverse false :: lexGo .txt r
    else lexGo (.unqV nm as (c :: raw) anm [c]) r
  | .quotedV _ _ raw _ _ _, [] => flatFail raw
  | .quotedV nm as raw anm q vacc, c :: r =>
    if c = q then
      lexGo (.attrs nm ((anm, some (unescEntities vacc.reverse)) :: as)
        (c :: raw)) r
    else lexGo (.quotedV nm as (c :: raw) anm q (c :: vacc)) r
  | .unqV _ _ raw _ _, [] => flatFail raw
  | .unqV nm as raw anm vacc, c :: r =>
    if unquotedValChar c then lexGo (.unqV nm as (c :: raw) anm (c :: vacc)) r
    else if c = '>' then
      .tagOpen nm ((anm, some (unescEntities vacc.reverse)) :: as).reverse
        false :: lexGo .txt r
    else lexGo (.attrs nm ((anm, some (unescEntities vacc.reverse)) :: as)
      (c :: raw)) r
  | .slashA _ _ raw, [] => flatFail raw
  | .slashA nm as _, '>' :: r => .tagOpen nm as.reverse true :: lexGo .txt r
  | .slashA nm as raw, '/' :: r => lexGo (.slashA nm as ('/' :: raw)) r
  | .slashA nm as raw, c :: r =>
    if pySpace c then lexGo (.attrs nm as (c :: raw)) r
    else lexGo (.attrNm nm as (c :: raw) [c]) r

/-- The `html.parser` lexer. -/
def lexHtml (s : Str) : List HTok := lexGo .txt s

/-- Node type of the BeautifulSoup document tree. -/
inductive HNode where
  | text (s : Str)
  | elem (name : Str) (attrs : List (Str × Option Str)) (children : List HNode)
  | cmt (s : Str)
  | dtd (s : Str)
  | pri (s : Str)

/-- An open element on the builder stack. -/
structure BFrame where
  name : Str
  attrs : List (Str × Option Str)
  childrenRev : List HNode

/-- Builder state: pending raw text (reversed), the open-element stack
(innermost first), and the completed top-level nodes (reversed). -/
structure BState where
  textRev : Str
  stack : List BFrame
  doneRev : List HNode

/-- The empty builder state. -/
def emptyB : BState := ⟨[], [], []⟩

/-- Append a finished node to the current container (the innermost open
element, or the top level). -/
def pushNode (st : BState) (n : HNode) : BState :=
  match st.stack with
  | [] => { st with doneRev := n :: st.doneRev }
  | f :: fs => { st with stack := { f with childrenRev := n :: f.childrenRev } :: fs }

/-- Flush pending raw text as a text node, decoding character references
(`convert_charrefs=True`). -/
def flushText (st : BState) : BState :=
  if st.textRev.isEmpty then st
  else pushNode { st with textRev := [] } (.text (unescEntities st.textRev.reverse))

/-- Close the innermost open element. -/
def closeTop (st : BState) : BState :=
  match st.stack with
  | [] => st
  | f :: fs => pushNode { st with stack := fs } (.elem f.name f.attrs f.childrenRev.reverse)

theorem closeTop_stack_length {st : BState} {f : BFrame} {fs : List BFrame}
    (h : st.stack = f :: fs) : (closeTop st).stack.length = fs.length := by
  unfold closeTop
  rw [h]
  unfold pushNode
  cases fs <;> simp

/-- Whether an element with the given name is open. -/
def stackHasTag (nm : Str) (fs : List BFrame) : Bool := fs.any (fun f => f.name = nm)

/-- Close open elements up to and including the most recent one named `nm`,
iterated over at most `k` frames. -/
def closeToTagF (nm : Str) : Nat → BState → BState
  | 0, st => st
  | k + 1, st =>
    match st.stack with
    | [] => st
    | f :: _ => if f.name = nm then closeTop st else closeToTagF nm k (closeTop st)

/-- Close open elements up to and including the most recent one named `nm`
(BeautifulSoup `_popToTag`); the caller guarantees the name is on the stack. -/
def closeToTag (nm : Str) (st : BState) : BState :=
  closeToTagF nm st.stack.length st

/-- BeautifulSoup's set of empty-element (void) tags. -/
def voidTags : List Str :=
  (["area", "base", "basefont", "bgsound", "br", "col", "command", "embed",
    "frame", "hr", "image", "img", "input", "isindex", "keygen", "link",
    "menuitem", "meta", "nextid", "param", "source", "spacer", "track",
    "wbr"].map String.data)

/-- Process one lexer token (BeautifulSoup handlers for data, start tags,
end tags, comments, declarations, processing instructions). -/
def buildStep (st : BState) (t : HTok) : BState :=
  match t with
  | .txt c => { st with textRev := c :: st.textRev }
  | .tagOpen nm attrs sc =>
    let st1 := flushText st
    if sc || voidTags.contains nm then pushNode st1 (.elem nm attrs [])
    else { st1 with stack := ⟨nm, attrs, []⟩ :: st1.stack }
  | .tagClose nm =>
    let st1 := flushText st
    if stackHasTag nm st1.stack then closeToTag nm st1 else st1
  | .cmt s => pushNode (flushText st) (.cmt s)
  | .dtd s => pushNode (flushText st) (.dtd s)
  | .pri s => pushNode (flushText st) (.pri s)

/-- Close the `k` innermost open elements. -/
def closeAllF : Nat → BState → BState
  | 0, st => st
  | k + 1, st => closeAllF k (closeTop st)

/-- Close every still-open element at end of input. -/
def closeAll (st : BState) : BState := closeAllF st.stack.length st

/-- Finish building: flush text, close open elements, return the forest. -/
def buildFinish (st : BState) : List HNode := (closeAll (flushText st)).doneRev.reverse

/-- Full model of `BeautifulSoup(s, 'html.parser')`: the parsed forest. -/
def parseHtml (s : Str) : List HNode := buildFinish ((lexHtml s).foldl buildStep emptyB)

/-- Escape `&`, `<`, `>` (BeautifulSoup's `minimal` output formatter). -/
def escMin : Str → Str
  | [] => []
  | '&' :: r => "&amp;".data ++ escMin r
  | '<' :: r => "&lt;".data ++ escMin r
  | '>' :: r => "&gt;".data ++ escMin r
  | c :: r => c :: escMin r

/-- Replace every `"` by `&quot;`. -/
def replQuot : Str → Str
  | [] => []
  | '"' :: r => "&quot;".data ++ replQuot r
  | c :: r => c :: replQuot r

/-- BeautifulSoup's attribute-value quoting rule, applied after minimal
escaping: double quotes by default, single quotes when the value contains a
double quote, `&quot;` when it contains both kinds. -/
def quoteAttrV (v : Str) : Str :=
  if v.contains '"' then
    if v.contains '\'' then '"' :: replQuot v ++ ['"']
    else '\'' :: v ++ ['\'']
  else '"' :: v ++ ['"']

/-- Serialize one attribute, with its leading space. -/
def serAttr : Str × Option Str → Str
  | (k, none) => ' ' :: k
  | (k, some v) => ' ' :: (k ++ '=' :: quoteAttrV (escMin v))

mutual

/-- Serialize a node (model of BeautifulSoup `str(soup)` output). -/
def serNode : HNode → Str
  | .text s => escMin s
  | .cmt s => "<!--".data ++ s ++ "-->".data
  | .dtd s => '<' :: '!' :: (s ++ ['>'])
  | .pri s => '<' :: '?' :: (s ++ ['>'])
  | .elem nm attrs cs =>
    if voidTags.contains nm then
      '<' :: (nm ++ (attrs.map serAttr).flatten ++ ['/', '>'])
    else
      '<' :: (nm ++ (attrs.map serAttr).flatten ++ '>' ::
        (serForest cs ++ '<' :: '/' :: (nm ++ ['>'])))

/-- Serialize a forest of nodes. -/
def serForest : List HNode → Str
  | [] => []
  | n :: ns => serNode n ++ serForest ns

end

mutual

/-- Text content of one node (comments, declarations and processing
instructions contribute nothing). -/
def getTextNode : HNode → Str
  | .text s => s
  | .elem _ _ cs => getTextForest cs
  | _ => []

/-- Concatenation of all descendant text nodes (model of `get_text()`). -/
def getTextForest : List HNode → Str
  | [] => []
  | n :: ns => getTextNode n ++ getTextForest ns

end

/-- Scanner splitting a string into its maximal whitespace-separated words
(the accumulator holds the current word, reversed). -/
def wsWordsGo (acc : Str) : Str → List Str
  | [] => if acc.isEmpty then [] else [acc.reverse]
  | c :: r =>
    if pySpace c then
      (if acc.isEmpty then wsWordsGo [] r else acc.reverse :: wsWordsGo [] r)
    else wsWordsGo (c :: acc) r

/-- Split a string into its maximal whitespace-separated words. -/
def wsWords (s : Str) : List Str := wsWordsGo [] s

/-- First value bound to an attribute name. -/
def lookupAttr (k : Str) (attrs : List (Str × Option Str)) : Option (Option Str) :=
  match attrs.find? (fun a => a.1 = k) with
  | some a => some a.2
  | none => none

/-- Whether an attribute list carries the `js-post-notice` marker class
(BeautifulSoup matches `class_=` against the whitespace-separated words of
the `class` attribute). -/
def isNotice (attrs : List (Str × Option Str)) : Bool :=
  match lookupAttr "class".data attrs with
  | some (some v) => (wsWords v).contains "js-post-notice".data
  | _ => false

mutual

/-- `decompose()` applied to one node: an element carrying the notice marker
class is removed together with its whole subtree. -/
def removeNoticesN : HNode → List HNode
  | .elem nm attrs cs =>
    if isNotice attrs then [] else [.elem nm attrs (removeNotices cs)]
  | n => [n]

/-- Model of the `decompose()` loop over a forest. -/
def removeNotices : List HNode → List HNode
  | [] => []
  | n :: ns => removeNoticesN n ++ removeNotices ns

end

mutual

/-- Attribute stripping on one node: an `a` element keeps only its `href`
attributes, every other element loses all attributes. -/
def stripAttrsN : HNode → HNode
  | .elem nm attrs cs =>
    .elem nm
      (if nm = "a".data then attrs.filter (fun a => a.1 = "href".data) else [])
      (stripAttrsF cs)
  | n => n

/-- Model of the attribute-stripping loop over a forest. -/
def stripAttrsF : List HNode → List HNode
  | [] => []
  | n :: ns => stripAttrsN n :: stripAttrsF ns

end

/-- The tags `clean_html` keeps. -/
def allowedTags : List Str := (["p", "code", "a"].map String.data)

mutual

/-- Unwrapping on one node: an element outside the allowed set is replaced
by its (recursively unwrapped) children. -/
def unwrapN : HNode → List HNode
  | .elem nm attrs cs =>
    if allowedTags.contains nm then [.elem nm attrs (unwrapDisallowed cs)]
    else unwrapDisallowed cs
  | n => [n]

/-- Model of the unwrap loop over a forest. -/
def unwrapDisallowed : List HNode → List HNode
  | [] => []
  | n :: ns => unwrapN n ++ unwrapDisallowed ns

end

/-- `JSONCombiner.clean_html`: parse, decompose notice elements, strip
attributes, unwrap disallowed tags, serialize, collapse whitespace, strip. -/
def clean_html (s : Str) : Str :=
  pyStrip (collapseWs (serForest
    (unwrapDisallowed (stripAttrsF (removeNotices (parseHtml s))))))

/-- `JSONCombiner.clean_question_content`: clean the HTML, strip the
remaining tags via `get_text()`, collapse whitespace, strip, lower-case. -/
def clean_question_content (s : Str) : Str :=
  pyLower (pyStrip (collapseWs (getTextForest (parseHtml (clean_html s)))))

/-! ## MD5 (model of `hashlib.md5(text.encode()).hexdigest()`)

Implemented in full over `Nat` arithmetic, reducing modulo `2^32`. -/

/-- Truncate to 32 bits. -/
def u32 (n : Nat) : Nat := n % 4294967296

/-- Rotate a 32-bit word left by `n` bits. -/
def rotl32 (x n : Nat) : Nat := (x * 2 ^ n + x / 2 ^ (32 - n)) % 4294967296

/-- Bitwise complement of a 32-bit word. -/
def not32 (x : Nat) : Nat := 4294967295 - x

/-- The MD5 sine-derived constant table. -/
def md5K : List Nat :=
  [0xd76aa478, 0xe8c7b756, 0x242070db, 0xc1bdceee,
   0xf57c0faf, 0x4787c62a, 0xa8304613, 0xfd469501,
   0x698098d8, 0x8b44f7af, 0xffff5bb1, 0x895cd7be,
   0x6b901122, 0xfd987193, 0xa679438e, 0x49b40821,
   0xf61e2562, 0xc040b340, 0x265e5a51, 0xe9b6c7aa,
   0xd62f105d, 0x02441453, 0xd8a1e681, 0xe7d3fbc8,
   0x21e1cde6, 0xc33707d6, 0xf4d50d87, 0x455a14ed,
   0xa9e3e905, 0xfcefa3f8, 0x676f02d9, 0x8d2a4c8a,
   0xfffa3942, 0x8771f681, 0x6d9d6122, 0xfde5380c,
   0xa4beea44, 0x4bdecfa9, 0xf6bb4b60, 0xbebfbc70,
   0x289b7ec6, 0xeaa127fa, 0xd4ef3085, 0x04881d05,
   0xd9d4d039, 0xe6db99e5, 0x1fa27cf8, 0xc4ac5665,
   0xf4292244, 0x432aff97, 0xab9423a7, 0xfc93a039,
   0x655b59c3, 0x8f0ccc92, 0xffeff47d, 0x85845dd1,
   0x6fa87e4f, 0xfe2ce6e0, 0xa3014314, 0x4e0811a1,
   0xf7537e82, 0xbd3af235, 0x2ad7d2bb, 0xeb86d391]

/-- The MD5 per-round shift amounts. -/
def md5S : List Nat :=
  [7, 12, 17, 22, 7, 12, 17, 22, 7, 12, 17, 22, 7, 12, 17, 22,
   5,  9, 14, 20, 5,  9, 14, 20, 5,  9, 14, 20, 5,  9, 14, 20,
   4, 11, 16, 23, 4, 11, 16, 23, 4, 11, 16, 23, 4, 11, 16, 23,
   6, 10, 15, 21, 6, 10, 15, 21, 6, 10, 15, 21, 6, 10, 15, 21]

/-- The MD5 round function and message-word index for step `i`. -/
def md5FG (i b c d : Nat) : Nat × Nat :=
  if i < 16 then ((b &&& c) ||| (not32 b &&& d), i)
  else if i < 32 then ((d &&& b) ||| (not32 d &&& c), (5 * i + 1) % 16)
  else if i < 48 then ((b ^^^ c) ^^^ d, (3 * i + 5) % 16)
  else (c ^^^ (b ||| not32 d), (7 * i) % 16)

/-- One MD5 step. -/
def md5Step (m : List Nat) (st : Nat × Nat × Nat × Nat) (i : Nat) :
    Nat × Nat × Nat × Nat :=
  let (a, b, c, d) := st
  let (f, g) := md5FG i b c d
  let e := u32 (f + a + md5K.getD i 0 + m.getD g 0)
  (d, u32 (b + rotl32 e (md5S.getD i 0)), b, c)

/-- Interpret 4 bytes as a little-endian 32-bit word. -/
def wordLE (bs : List Nat) : Nat :=
  bs.getD 0 0 + 256 * bs.getD 1 0 + 65536 * bs.getD 2 0 + 16777216 * bs.getD 3 0

/-- Chunk collector: `k` is the number of elements still wanted in the
current chunk, `acc` the current chunk reversed. -/
def chunksGo (n k : Nat) (acc : List α) : List α → List (List α)
  | [] => [acc.reverse]
  | x :: xs =>
    if k = 0 then acc.reverse :: chunksGo n (n - 1) [x] xs
    else chunksGo n (k - 1) (x :: acc) xs

/-- Split a list into chunks of `n` elements (`n` is positive at every use
site). -/
def chunksOf (n : Nat) : List α → List (List α)
  | [] => []
  | x :: xs => chunksGo n (n - 1) [x] xs

/-- Process one 64-byte block. -/
def md5Block (st : Nat × Nat × Nat × Nat) (block : List Nat) :
    Nat × Nat × Nat × Nat :=
  let m := (chunksOf 4 block).map wordLE
  let (a0, b0, c0, d0) := st
  let (a, b, c, d) := (List.range 64).foldl (md5Step m) st
  (u32 (a0 + a), u32 (b0 + b), u32 (c0 + c), u32 (d0 + d))

/-- MD5 padding: `0x80`, zeros to 56 mod 64, 8-byte little-endian bit length. -/
def md5Pad (msg : List Nat) : List Nat :=
  let len := msg.length
  let padLen := (55 + 64 - len % 64) % 64 + 1
  let bitLen := len * 8
  msg ++ 128 :: List.replicate (padLen - 1) 0 ++
    (List.range 8).map (fun i => bitLen / 2 ^ (8 * i) % 256)

/-- Hex digits of one byte (lowercase). -/
def byteHex (b : Nat) : Str :=
  let dig := fun n => if n < 10 then Char.ofNat ('0'.toNat + n)
                      else Char.ofNat ('a'.toNat + n - 10)
  [dig (b / 16), dig (b % 16)]

/-- Little-endian hex rendering of a 32-bit word. -/
def wordHexLE (w : Nat) : Str :=
  byteHex (w % 256) ++ byteHex (w / 256 % 256) ++
  byteHex (w / 65536 % 256) ++ byteHex (w / 16777216 % 256)

/-- UTF-8 encoding of one character. -/
def utf8Char (c : Char) : List Nat :=
  let n := c.toNat
  if n < 0x80 then [n]
  else if n < 0x800 then [0xC0 + n / 0x40, 0x80 + n % 0x40]
  else if n < 0x10000 then
    [0xE0 + n / 0x1000, 0x80 + n / 0x40 % 0x40, 0x80 + n % 0x40]
  else
    [0xF0 + n / 0x40000, 0x80 + n / 0x1000 % 0x40,
     0x80 + n / 0x40 % 0x40, 0x80 + n % 0x40]

/-- UTF-8 encoding of a string (Python `str.encode()`). -/
def utf8Bytes (s : Str) : List Nat := (s.map utf8Char).flatten

/-- Model of `hashlib.md5(s.encode()).hexdigest()`. -/
def md5hex (s : Str) : Str :=
  let blocks := chunksOf 64 (md5Pad (utf8Bytes s))
  let (a, b, c, d) :=
    blocks.foldl md5Block (0x67452301, 0xefcdab89, 0x98badcfe, 0x10325476)
  wordHexLE a ++ wordHexLE b ++ wordHexLE c ++ wordHexLE d

/-! ## Record model and `JSONCombiner` (`WebScraper/wrangling.py`) -/

/-- Python/JSON values as they occur in the scraped record fields. -/
inductive PyVal where
  | str (s : Str)
  | dict (kvs : List (Str × PyVal))
  | list (xs : List PyVal)
  | int (n : Int)
  | bool (b : Bool)
  | none

/-- Model of `d.get(k)` on a Python dict (first binding wins). -/
def dGet (kvs : List (Str × PyVal)) (k : Str) : Option PyVal :=
  (kvs.find? (fun a => a.1 = k)).map (·.2)

/-- A scraped record: the `question` and `answers` fields of the Python dict
(`Option.none` = key absent).  The `answers` field, when present, is a JSON
array as in the RawRecord data model (`process_file` iterates over it, which
would raise on a non-sequence). -/
structure Entry where
  question : Option PyVal := Option.none
  answers : Option (List PyVal) := Option.none

/-- `clean_html` as called on an arbitrary value: non-string input yields the
empty string (the `isinstance` guard). -/
def clean_html_v : PyVal → Str
  | .str s => clean_html s
  | _ => []

/-- `clean_question_content` on an arbitrary value (the string case goes
through `clean_html`, then `get_text`, whitespace collapsing, strip,
lower-casing). -/
def clean_question_content_v (v : PyVal) : Str :=
  pyLower (pyStrip (collapseWs (getTextForest (parseHtml (clean_html_v v)))))

/-- `JSONCombiner.extract_question_content`: `entry.get('question', '')`,
unwrap a dict-shaped question through its `content` key, then canonicalize
with `clean_question_content`. -/
def extract_question_content (e : Entry) : Str :=
  match e.question.getD (PyVal.str []) with
  | PyVal.dict kvs =>
    clean_question_content_v ((dGet kvs "content".data).getD (PyVal.str []))
  | v => clean_question_content_v v

/-- `JSONCombiner.hash_entry`: MD5 of the canonicalized question content
only; the answers are never read. -/
def hash_entry (e : Entry) : Str := md5hex (extract_question_content e)

/-- The cleaning step of `process_file` applied to one entry: a string
question is cleaned, a dict-shaped question is rebuilt as
`{'content': cleaned}`, any other question shape leaves the key absent;
answers keep (cleaned) string elements only. -/
def processEntry (e : Entry) : Entry where
  question :=
    match e.question with
    | some (PyVal.str s) => some (PyVal.str (clean_html s))
    | some (PyVal.dict kvs) =>
      some (PyVal.dict
        [("content".data,
          PyVal.str (clean_html_v ((dGet kvs "content".data).getD (PyVal.str []))))])
    | _ => Option.none
  answers :=
    match e.answers with
    | some xs => some (xs.filterMap fun a =>
        match a with
        | PyVal.str s => some (PyVal.str (clean_html s))
        | _ => Option.none)
    | Option.none => Option.none

/-- The mutable state of a `JSONCombiner` object. -/
structure JSONCombiner where
  duplicate_indices : List (Str × List (Nat × Str)) := []
  unique_entries : List Entry := []
  hash_set : List Str := []

/-- Record a duplicate location under its hash
(`duplicate_indices[hash].append((idx, file_path))`). -/
def dupAppend (d : List (Str × List (Nat × Str))) (h : Str) (loc : Nat × Str) :
    List (Str × List (Nat × Str)) :=
  if d.any (fun a => a.1 = h) then
    d.map (fun a => if a.1 = h then (a.1, a.2 ++ [loc]) else a)
  else d ++ [(h, [loc])]

/-- One iteration of the `process_file` loop. -/
def processFileStep (file_path : Str) (acc : JSONCombiner × List Entry × Nat)
    (e : Entry) : JSONCombiner × List Entry × Nat :=
  let c := acc.1
  let pes := acc.2.1
  let idx := acc.2.2
  let pe := processEntry e
  let h := hash_entry pe
  if c.hash_set.contains h then
    ({ c with duplicate_indices := dupAppend c.duplicate_indices h (idx, file_path) },
     pes, idx + 1)
  else
    ({ c with hash_set := c.hash_set ++ [h] }, pes ++ [pe], idx + 1)

/-- `JSONCombiner.process_file` on already-parsed file contents: returns the
updated combiner state and the entries this file contributes (first-seen
question hashes only). -/
def process_file (c : JSONCombiner) (file_path : Str) (data : List Entry) :
    JSONCombiner × List Entry :=
  let r := data.foldl (processFileStep file_path) (c, [], 0)
  (r.1, r.2.1)

/-- The statistics dict returned by `combine_files`. -/
structure CombineStats where
  original_file_counts : List (Str × Nat)
  total_original_entries : Nat
  unique_count : Nat
  duplicates_removed : Int
  duplicate_indices : List (Str × List (Nat × Str))

/-- One iteration of the `combine_files` loop. -/
def combineStep (acc : JSONCombiner × List (Str × Nat) × Nat)
    (fp : Str × List Entry) : JSONCombiner × List (Str × Nat) × Nat :=
  let r := process_file acc.1 fp.1 fp.2
  ({ r.1 with unique_entries := r.1.unique_entries ++ r.2 },
   acc.2.1 ++ [(fp.1, r.2.length)], acc.2.2 + r.2.length)

/-- `JSONCombiner.combine_files` on already-parsed files: process each file
in order, extend `unique_entries`, and report statistics.  Note that
`original_counts[file_path] = len(entries)` and `total_entries` are computed
from the return value of `process_file`, i.e. after deduplication. -/
def combine_files (c : JSONCombiner) (files : List (Str × List Entry)) :
    JSONCombiner × CombineStats :=
  let r := files.foldl combineStep (c, [], 0)
  (r.1,
   { original_file_counts := r.2.1
     total_original_entries := r.2.2
     unique_count := r.1.unique_entries.length
     duplicates_removed := (r.2.2 : Int) - (r.1.unique_entries.length : Int)
     duplicate_indices := r.1.duplicate_indices })

/-! ## `DataPreprocessor` (`Preprocessor/data_preprocessor.py`) -/

/-- Configuration stored by `DataPreprocessor.__init__`: both constructor
parameters are kept, and the two `CountVectorizer`s it builds are determined
by `max_vocab_size` (their `max_features`) together with their fixed token
patterns, which are modelled below. -/
structure DataPreprocessor where
  min_word_freq : Nat := 2
  max_vocab_size : Nat := 50000

/-- Start characters of the code identifier alternative `[A-Za-z_]`. -/
def identStart (c : Char) : Bool :=
  (65 ≤ c.toNat && c.toNat ≤ 90) || (97 ≤ c.toNat && c.toNat ≤ 122) ||
  c.toNat = 95

/-- Continuation characters of the code identifier alternative
`[A-Za-z0-9_]`. -/
def identChar (c : Char) : Bool := identStart c || isDigitC c

/-- Scanner states for the code token pattern: between tokens, inside an
identifier token, inside a non-whitespace run token (accumulators
reversed). -/
inductive CodeSt where
  | base
  | ident (acc : Str)
  | other (acc : Str)

/-- `findall` of the code-channel token pattern `[A-Za-z_][A-Za-z0-9_]*|\S+`
as a scanner: at each position the first alternative is preferred and both
alternatives are greedy; on whitespace the scan advances. -/
def codeGo : CodeSt → Str → List Str
  | .base, [] => []
  | .base, c :: r =>
    if pySpace c then codeGo .base r
    else if identStart c then codeGo (.ident [c]) r
    else codeGo (.other [c]) r
  | .ident acc, [] => [acc.reverse]
  | .ident acc, c :: r =>
    if identChar c then codeGo (.ident (c :: acc)) r
    else if pySpace c then acc.reverse :: codeGo .base r
    else acc.reverse :: codeGo (.other [c]) r
  | .other acc, [] => [acc.reverse]
  | .other acc, c :: r =>
    if pySpace c then acc.reverse :: codeGo .base r
    else codeGo (.other (c :: acc)) r

/-- `findall` of the code token pattern on a whole string. -/
def codeFindall (s : Str) : List Str := codeGo .base s

/-- The code-channel analyzer of `self.code_vectoriser`
(`CountVectorizer` lower-cases the document, then applies the token
pattern). -/
def codeTokenize (s : Str) : List Str := codeFindall (pyLower s)

/-- Word characters of the default `CountVectorizer` token pattern
`\b\w\w+\b` (ASCII model of `\w`). -/
def wordChar (c : Char) : Bool :=
  (65 ≤ c.toNat && c.toNat ≤ 90) || (97 ≤ c.toNat && c.toNat ≤ 122) ||
  isDigitC c || c.toNat = 95

/-- Scanner for the default text token pattern `\b\w\w+\b`: maximal word
character runs, kept when at least two characters long (accumulator
reversed; `none` = between runs). -/
def textGo : Option Str → Str → List Str
  | Option.none, [] => []
  | Option.none, c :: r =>
    if wordChar c then textGo (some [c]) r else textGo Option.none r
  | some acc, [] => if 2 ≤ acc.length then [acc.reverse] else []
  | some acc, c :: r =>
    if wordChar c then textGo (some (c :: acc)) r
    else if 2 ≤ acc.length then acc.reverse :: textGo Option.none r
    else textGo Option.none r

/-- `findall` of the default text token pattern on a whole string. -/
def textFindall (s : Str) : List Str := textGo Option.none s

/-- The text-channel analyzer of `self.text_vectoriser`. -/
def textTokenize (s : Str) : List Str := textFindall (pyLower s)

/-- Strict lexicographic order on strings by code point. -/
def strLt : Str → Str → Bool
  | [], [] => false
  | [], _ :: _ => true
  | _ :: _, [] => false
  | a :: as, b :: bs =>
    if a.toNat < b.toNat then true
    else if b.toNat < a.toNat then false
    else strLt as bs

/-- Stable insertion into a sorted list: `a` goes before the first element
`b` with `le a b`. -/
def insSorted (le : α → α → Bool) (a : α) : List α → List α
  | [] => [a]
  | b :: bs => if le a b then a :: b :: bs else b :: insSorted le a bs

/-- Stable insertion sort. -/
def sortIns (le : α → α → Bool) : List α → List α
  | [] => []
  | a :: as => insSorted le a (sortIns le as)

/-- Total occurrence count of each token, in first-seen order. -/
def countTokens (toks : List Str) : List (Str × Nat) :=
  toks.foldl
    (fun acc t =>
      if acc.any (fun a => a.1 = t) then
        acc.map (fun a => if a.1 = t then (a.1, a.2 + 1) else a)
      else acc ++ [(t, 1)])
    []

/-- Model of `CountVectorizer.fit` with `max_features`: terms are ranked by
total frequency (ties broken towards the alphabetically earlier term, the
stable `argsort` of sklearn), the top `maxF` are kept, and the final
vocabulary indexes the kept terms in alphabetical order; the result is the
list of terms in index order. -/
def fitVocab (analyzer : Str → List Str) (maxF : Nat) (docs : List Str) :
    List Str :=
  let counts := countTokens ((docs.map analyzer).flatten)
  let alpha := sortIns (fun a b => !(strLt b.1 a.1)) counts
  let top := (sortIns (fun a b => b.2 ≤ a.2) alpha).take maxF
  (sortIns (fun a b => !(strLt b.1 a.1)) top).map (·.1)

/-- Model of `vectoriser.transform(docs).toarray().sum(axis=0)`: the count
vector over the vocabulary, summed over all documents. -/
def transformSum (analyzer : Str → List Str) (vocab : List Str)
    (docs : List Str) : List Nat :=
  vocab.map (fun t => ((docs.map analyzer).flatten).countP (fun x => x == t))

/-- One entry of `processed_data`: token-ready strings per channel and
role. -/
structure ProcessedEntry where
  question_code : List Str := []
  question_text : List Str := []
  answer_code : List Str := []
  answer_text : List Str := []

/-- `DataPreprocessor.create_vocabulary`: collect the code strings
(question then answer, per entry) and the text strings, and fit the two
vectorizers; the result is the pair of fitted vocabularies. -/
def create_vocabulary (p : DataPreprocessor) (processed : List ProcessedEntry) :
    List Str × List Str :=
  let all_code := processed.foldl
    (fun acc e => acc ++ e.question_code ++ e.answer_code) []
  let all_text := processed.foldl
    (fun acc e => acc ++ e.question_text ++ e.answer_text) []
  (fitVocab codeTokenize p.max_vocab_size all_code,
   fitVocab textTokenize p.max_vocab_size all_text)

/-- The bag-of-words record produced per entry. -/
structure BagOfWords where
  question_code : List Nat
  answer_code : List Nat
  question_text : List Nat
  answer_text : List Nat

/-- `DataPreprocessor.transform_to_bag_of_words_data` for one processed
entry, given the two fitted vocabularies: empty string lists yield all-zero
vectors of the vocabulary length. -/
def transform_to_bag_of_words (codeV textV : List Str) (e : ProcessedEntry) :
    BagOfWords where
  question_code :=
    if e.question_code.isEmpty then List.replicate codeV.length 0
    else transformSum codeTokenize codeV e.question_code
  answer_code :=
    if e.answer_code.isEmpty then List.replicate codeV.length 0
    else transformSum codeTokenize codeV e.answer_code
  question_text :=
    if e.question_text.isEmpty then List.replicate textV.length 0
    else transformSum textTokenize textV e.question_text
  answer_text :=
    if e.answer_text.isEmpty then List.replicate textV.length 0
    else transformSum textTokenize textV e.answer_text

/-- The vocabulary-fit-then-encode phase of `process_file`: fit both
vocabularies over the whole corpus, then encode every entry. -/
def bag_of_words_dataset (p : DataPreprocessor)
    (processed : List ProcessedEntry) : List BagOfWords :=
  let v := create_vocabulary p processed
  processed.map (transform_to_bag_of_words v.1 v.2)

/-- `DataPreprocessor.validate_json_entry`: the entry must be a dict with a
`question` key and an `answers` key holding a list. -/
def validate_json_entry (v : PyVal) : Bool :=
  match v with
  | PyVal.dict kvs =>
    (match dGet kvs "question".data with
     | some _ =>
       (match dGet kvs "answers".data with
        | some (PyVal.list _) => true
        | _ => false)
     | Option.none => false)
  | _ => false

/-- One iteration of the validation loop of `load_json_safely`: keep a
valid entry, record the index of an invalid one. -/
def valStep (acc : List PyVal × List Nat × Nat) (e : PyVal) :
    List PyVal × List Nat × Nat :=
  if validate_json_entry e then (acc.1 ++ [e], acc.2.1, acc.2.2 + 1)
  else (acc.1, acc.2.1 ++ [acc.2.2], acc.2.2 + 1)

/-- The validation loop of `load_json_safely` over the parsed array:
accumulates the surviving entries in order and the indices of the dropped
(warned-about) entries. -/
def validateLoop (data : List PyVal) : List PyVal × List Nat :=
  let r := data.foldl valStep ([], [], 0)
  (r.1, r.2.1)

/-- The post-parse part of `load_json_safely`: validate each entry, raise
`ValueError("No valid entries found in the JSON file")` when none survive,
otherwise return the survivors (the skipped indices are reported alongside,
modelling the printed warnings). -/
def load_validate (data : List PyVal) : Except Str (List PyVal × List Nat) :=
  let vd := validateLoop data
  if vd.1.isEmpty then
    Except.error "No valid entries found in the JSON file".data
  else Except.ok vd

/-- Scanner for `re.sub(r'}\s*{', '},{', s)` with leftmost non-overlapping
semantics: `some ws` means the scan sits after a `}` having skipped the
whitespace `ws` (reversed), looking for a `{`. -/
def fixMCGo : Option Str → Str → Str
  | Option.none, [] => []
  | Option.none, '}' :: r => fixMCGo (some []) r
  | Option.none, c :: r => c :: fixMCGo Option.none r
  | some ws, [] => '}' :: ws.reverse
  | some ws, c :: r =>
    if pySpace c then fixMCGo (some (c :: ws)) r
    else if c = '{' then '}' :: ',' :: '{' :: fixMCGo Option.none r
    else if c = '}' then '}' :: ws.reverse ++ fixMCGo (some []) r
    else '}' :: ws.reverse ++ c :: fixMCGo Option.none r

/-- Model of `re.sub(r'}\s*{', '},{', s)`. -/
def fixMissingCommas (s : Str) : Str := fixMCGo Option.none s

/-- Scanner for `re.sub(r',(\s*[}\]])', r'\1', s)` with leftmost
non-overlapping semantics: `some ws` means the scan sits after a `,` having
skipped the whitespace `ws` (reversed), looking for `}` or `]`; on a match
the whitespace and the bracket are kept and the comma is dropped. -/
def remTCGo : Option Str → Str → Str
  | Option.none, [] => []
  | Option.none, ',' :: r => remTCGo (some []) r
  | Option.none, c :: r => c :: remTCGo Option.none r
  | some ws, [] => ',' :: ws.reverse
  | some ws, c :: r =>
    if pySpace c then remTCGo (some (c :: ws)) r
    else if c = '}' || c = ']' then ws.reverse ++ c :: remTCGo Option.none r
    else if c = ',' then ',' :: ws.reverse ++ remTCGo (some []) r
    else ',' :: ws.reverse ++ c :: remTCGo Option.none r

/-- Model of `re.sub(r',(\s*[}\]])', r'\1', s)`. -/
def remTrailingCommas (s : Str) : Str := remTCGo Option.none s

/-- `DataPreprocessor.fix_json_structure`: strip surrounding whitespace and
a leading BOM, wrap in `[` `]` when missing, insert commas between adjacent
`}` `{`, remove trailing commas before `}` or `]`. -/
def fix_json_structure (s : Str) : Str :=
  let s1 := (pyStrip s).dropWhile (· = '\uFEFF')
  let s2 := if s1.head? = some '[' then s1 else '[' :: s1
  let s3 := if s2.getLast? = some ']' then s2 else s2 ++ [']']
  remTrailingCommas (fixMissingCommas s3)

/-! ## Supporting lemmas -/

theorem identChar_not_space {c : Char} (h : identChar c = true) :
    pySpace c = false := by
  simp only [identChar, identStart, isDigitC, Bool.or_eq_true,
    Bool.and_eq_true, decide_eq_true_eq] at h
  simp only [pySpace, Bool.or_eq_false_iff, decide_eq_false_iff_not,
    Bool.and_eq_false_iff, Bool.not_eq_true]
  omega

theorem not_space_of_mem_takeWhile_identChar {c : Char} {l : Str}
    (h : c ∈ l.takeWhile identChar) : pySpace c = false :=
  identChar_not_space (List.mem_takeWhile_imp h)

theorem all_takeWhile {α : Type} (p : α → Bool) (l : List α) :
    (l.takeWhile p).all p = true := by
  induction l with
  | nil => simp
  | cons a t ih =>
    by_cases h : p a
    · simp only [List.takeWhile_cons, h, if_true, List.all_cons, ih,
        Bool.and_true]
    · simp [List.takeWhile_cons, h]

theorem filter_eq_self_of_all {α : Type} {p : α → Bool} {l : List α}
    (h : ∀ a ∈ l, p a = true) : l.filter p = l := by
  induction l with
  | nil => rfl
  | cons a t ih =>
    rw [List.filter_cons_of_pos (h a (List.mem_cons_self a t)),
        ih (fun b hb => h b (List.mem_cons_of_mem a hb))]

/-- The tokens accepted by claim C2: identifier runs. -/
def isIdentTok : Str → Bool
  | [] => false
  | c :: r => identStart c && r.all identChar

/-- The per-token property of the amended claim C2: nonempty, whitespace
free, and an identifier run whenever it starts with an identifier-start
character. -/
def codeTokOk (x : Str) : Prop :=
  x ≠ [] ∧ x.all (fun c => !pySpace c) = true ∧
    (identStart (x.headD ' ') = true → isIdentTok x = true)

theorem identStart_identChar {c : Char} (h : identStart c = true) :
    identChar c = true := by simp [identChar, h]

theorem all_identChar_nws {x : Str} (h : x.all identChar = true) :
    x.all (fun c => !pySpace c) = true := by
  rw [List.all_eq_true] at h ⊢
  intro c hc
  simp [identChar_not_space (h c hc)]

theorem headD_append_left {α : Type} {l : List α} (m : List α) (d : α)
    (h : l ≠ []) : (l ++ m).headD d = l.headD d := by
  cases l with
  | nil => exact absurd rfl h
  | cons a t => simp

theorem isIdentTok_of {x : Str} (hne : x ≠ [])
    (hh : identStart (x.headD ' ') = true) (ht : x.all identChar = true) :
    isIdentTok x = true := by
  cases x with
  | nil => exact absurd rfl hne
  | cons c r =>
    simp only [List.headD_cons] at hh
    simp only [List.all_cons, Bool.and_eq_true] at ht
    simp [isIdentTok, hh, ht.2]

theorem tokOk_of_ident {acc : Str} (hne : acc ≠ [])
    (hall : acc.all identChar = true) : codeTokOk acc.reverse := by
  refine ⟨by simpa using hne, ?_, ?_⟩
  · apply all_identChar_nws
    simpa using hall
  · intro hh
    exact isIdentTok_of (by simpa using hne) hh (by simpa using hall)

theorem tokOk_of_other {acc : Str} (hne : acc ≠ [])
    (hall : acc.all (fun c => !pySpace c) = true)
    (hhd : identStart (acc.reverse.headD ' ') = false) :
    codeTokOk acc.reverse := by
  refine ⟨by simpa using hne, by simpa using hall, ?_⟩
  intro hh
  rw [hhd] at hh
  exact absurd hh (by simp)

theorem codeGo_spec (t : Str) :
    ((∀ x ∈ codeGo .base t, codeTokOk x) ∧
      (codeGo .base t).flatten = t.filter (fun c => !pySpace c)) ∧
    (∀ acc, acc ≠ [] → acc.all identChar = true →
      (∀ x ∈ codeGo (.ident acc) t, codeTokOk x) ∧
      (codeGo (.ident acc) t).flatten =
        acc.reverse ++ t.filter (fun c => !pySpace c)) ∧
    (∀ acc, acc ≠ [] → acc.all (fun c => !pySpace c) = true →
      identStart (acc.reverse.headD ' ') = false →
      (∀ x ∈ codeGo (.other acc) t, codeTokOk x) ∧
      (codeGo (.other acc) t).flatten =
        acc.reverse ++ t.filter (fun c => !pySpace c)) := by
  induction t with
  | nil =>
    refine ⟨⟨by simp [codeGo], by simp [codeGo]⟩, ?_, ?_⟩
    · intro acc hne hall
      constructor
      · intro x hx
        rw [show codeGo (.ident acc) [] = [acc.reverse] from rfl] at hx
        rcases List.mem_singleton.mp hx with h
        subst h
        exact tokOk_of_ident hne hall
      · simp [codeGo]
    · intro acc hne hall hhd
      constructor
      · intro x hx
        rw [show codeGo (.other acc) [] = [acc.reverse] from rfl] at hx
        rcases List.mem_singleton.mp hx with h
        subst h
        exact tokOk_of_other hne hall hhd
      · simp [codeGo]
  | cons c r ih =>
    obtain ⟨ihb, ihi, iho⟩ := ih
    refine ⟨?_, ?_, ?_⟩
    · -- base state
      by_cases hsp : pySpace c = true
      · rw [show codeGo .base (c :: r) = codeGo .base r by
              simp [codeGo, hsp]]
        exact ⟨ihb.1, by rw [ihb.2, List.filter_cons_of_neg (by simp [hsp])]⟩
      · by_cases hid : identStart c = true
        · rw [show codeGo .base (c :: r) = codeGo (.ident [c]) r by
                simp [codeGo, hsp, hid]]
          have h := ihi [c] (by simp)
            (by simp [identStart_identChar hid])
          refine ⟨h.1, ?_⟩
          rw [h.2, List.filter_cons_of_pos
                (by simp [identChar_not_space (identStart_identChar hid)])]
          simp
        · rw [show codeGo .base (c :: r) = codeGo (.other [c]) r by
                simp [codeGo, hsp, hid]]
          have h := iho [c] (by simp) (by simp [hsp])
            (by simp [hid])
          refine ⟨h.1, ?_⟩
          rw [h.2, List.filter_cons_of_pos (by simp [hsp])]
          simp
    · -- ident state
      intro acc hne hall
      by_cases hic : identChar c = true
      · rw [show codeGo (.ident acc) (c :: r) = codeGo (.ident (c :: acc)) r by
              simp [codeGo, hic]]
        have h := ihi (c :: acc) (by simp) (by simp [hic, hall])
        refine ⟨h.1, ?_⟩
        rw [h.2, List.filter_cons_of_pos (by simp [identChar_not_space hic])]
        simp
      · by_cases hsp : pySpace c = true
        · rw [show codeGo (.ident acc) (c :: r) =
                acc.reverse :: codeGo .base r by simp [codeGo, hic, hsp]]
          constructor
          · intro x hx
            rcases List.mem_cons.mp hx with h | h
            · subst h; exact tokOk_of_ident hne hall
            · exact ihb.1 x h
          · rw [List.flatten_cons, ihb.2,
              List.filter_cons_of_neg (by simp [hsp])]
        · rw [show codeGo (.ident acc) (c :: r) =
                acc.reverse :: codeGo (.other [c]) r by
                simp [codeGo, hic, hsp]]
          have hid : identStart c = false := by
            rcases h : identStart c with _ | _
            · rfl
            · exact absurd (identStart_identChar h) (by simp [hic])
          have h := iho [c] (by simp) (by simp [hsp]) (by simp [hid])
          constructor
          · intro x hx
            rcases List.mem_cons.mp hx with hx | hx
            · subst hx; exact tokOk_of_ident hne hall
            · exact h.1 x hx
          · rw [List.flatten_cons, h.2,
              List.filter_cons_of_pos (by simp [hsp])]
            simp
    · -- other state
      intro acc hne hall hhd
      by_cases hsp : pySpace c = true
      · rw [show codeGo (.other acc) (c :: r) =
              acc.reverse :: codeGo .base r by simp [codeGo, hsp]]
        constructor
        · intro x hx
          rcases List.mem_cons.mp hx with h | h
          · subst h; exact tokOk_of_other hne hall hhd
          · exact ihb.1 x h
        · rw [List.flatten_cons, ihb.2,
            List.filter_cons_of_neg (by simp [hsp])]
      · rw [show codeGo (.other acc) (c :: r) =
              codeGo (.other (c :: acc)) r by simp [codeGo, hsp]]
        have h := iho (c :: acc) (by simp) (by simp [hsp, hall])
          (by rw [List.reverse_cons,
                headD_append_left [c] ' ' (by simpa using hne)]
              exact hhd)
        refine ⟨h.1, ?_⟩
        rw [h.2, List.filter_cons_of_pos (by simp [hsp])]
        simp

theorem valFold_go (l : List PyVal) (as : List PyVal) (is : List Nat) (n : Nat) :
    l.foldl valStep (as, is, n) =
      (as ++ l.filter validate_json_entry,
       is ++ ((List.enumFrom n l).filter
         (fun a => !validate_json_entry a.2)).map (·.1),
       n + l.length) := by
  induction l generalizing as is n with
  | nil => simp
  | cons e t ih =>
    simp only [List.foldl_cons, List.enumFrom, valStep]
    by_cases hv : validate_json_entry e = true
    · rw [if_pos hv, ih]
      rw [List.filter_cons_of_pos hv,
          List.filter_cons_of_neg (by simp [hv])]
      simp only [List.length_cons, List.append_assoc, List.singleton_append,
        Prod.mk.injEq]
      refine ⟨by trivial, by trivial, by omega⟩
    · rw [if_neg hv, ih]
      rw [List.filter_cons_of_neg (by simpa using hv),
          List.filter_cons_of_pos (by simpa using hv)]
      simp only [List.length_cons, List.map_cons, List.append_assoc,
        List.singleton_append, Prod.mk.injEq]
      refine ⟨by trivial, by trivial, by omega⟩

/-! ## Claim theorems -/

/-- Claim C2, counterexample: on input `++` the code-channel tokenizer
(`CountVectorizer(token_pattern=r'[A-Za-z_][A-Za-z0-9_]*|\S+')`) produces
the single token `++`, a multi-character punctuation run — the second
alternative of the pattern is `\S+`, a maximal non-whitespace run, not a
single character. -/
theorem C2_counterexample :
    codeTokenize "++".data = ["++".data] ∧
    isIdentTok "++".data = false ∧ ("++".data).length ≠ 1 :=
  ⟨rfl, rfl, by decide⟩

/-- Claim C2, amended: every token of the code-channel tokenizer is a
nonempty whitespace-free run; a token beginning with an identifier-start
character is an identifier run matching `[A-Za-z_][A-Za-z0-9_]*`; any other
token is a maximal run of non-whitespace characters (the tokens concatenate
to the lower-cased input minus its whitespace, so runs are maximal and
multi-character punctuation runs do occur). -/
theorem C2_amended (s : Str) :
    (∀ t ∈ codeTokenize s, codeTokOk t) ∧
    (codeTokenize s).flatten = (pyLower s).filter (fun c => !pySpace c) := by
  unfold codeTokenize codeFindall
  exact (codeGo_spec (pyLower s)).1

theorem C2_amended_witness :
    isIdentTok "xy".data = true ∧
    (codeTokenize " Xy + 1".data).flatten =
      (pyLower " Xy + 1".data).filter (fun c => !pySpace c) :=
  ⟨((C2_amended " Xy + 1".data).1 "xy".data (by decide)).2.2 (by decide),
   (C2_amended " Xy + 1".data).2⟩

/-- Claim C8: `hash_entry` reads only the `question` field of a record
(through `extract_question_content`), so two records with the same question
field — in particular with reordered, duplicated, removed or otherwise
different answers — get the same MD5 content hash. -/
theorem C8_hash_ignores_answers (e1 e2 : Entry) (h : e1.question = e2.question) :
    hash_entry e1 = hash_entry e2 := by
  unfold hash_entry extract_question_content
  rw [h]

theorem C8_witness :
    hash_entry { question := some (PyVal.str "<p>Q</p>".data),
                 answers := some [PyVal.str "a1".data, PyVal.str "a2".data] } =
    hash_entry { question := some (PyVal.str "<p>Q</p>".data),
                 answers := some [PyVal.str "a2".data, PyVal.str "a2".data,
                                  PyVal.str "b".data] } :=
  C8_hash_ignores_answers _ _ rfl

/-- Claim C9: `min_word_freq` is stored by `__init__` but never read
afterwards; two preprocessors agreeing on `max_vocab_size` produce identical
vocabularies and identical bag-of-words datasets on every corpus, whatever
their `min_word_freq` values. -/
theorem C9_min_word_freq_no_effect (p1 p2 : DataPreprocessor)
    (h : p1.max_vocab_size = p2.max_vocab_size)
    (data : List ProcessedEntry) :
    create_vocabulary p1 data = create_vocabulary p2 data ∧
    bag_of_words_dataset p1 data = bag_of_words_dataset p2 data := by
  unfold bag_of_words_dataset create_vocabulary
  rw [h]
  exact ⟨rfl, rfl⟩

theorem C9_witness :
    create_vocabulary ⟨0, 3⟩ [⟨["x y z w".data], ["ab cd".data], [], []⟩] =
      create_vocabulary ⟨99, 3⟩ [⟨["x y z w".data], ["ab cd".data], [], []⟩] ∧
    bag_of_words_dataset ⟨0, 3⟩ [⟨["x y z w".data], ["ab cd".data], [], []⟩] =
      bag_of_words_dataset ⟨99, 3⟩ [⟨["x y z w".data], ["ab cd".data], [], []⟩] :=
  C9_min_word_freq_no_effect _ _ rfl _

/-- Claim C4: after parsing, the loading step keeps exactly the array
elements that pass validation (a dict with a `question` key and an `answers`
key holding a list), in their original order; the dropped elements are
counted by index; and the `"No valid entries found in the JSON file"` error
is raised precisely when no element survives. -/
theorem C4_validation (data : List PyVal) :
    (data.filter validate_json_entry ≠ [] →
       load_validate data = Except.ok (data.filter validate_json_entry,
         (((List.enumFrom 0 data).filter
            (fun a => !validate_json_entry a.2)).map (·.1)))) ∧
    (data.filter validate_json_entry = [] →
       load_validate data =
         Except.error "No valid entries found in the JSON file".data) := by
  have hloop : validateLoop data = (data.filter validate_json_entry,
      ((List.enumFrom 0 data).filter
        (fun a => !validate_json_entry a.2)).map (·.1)) := by
    unfold validateLoop
    rw [valFold_go]
    simp
  unfold load_validate
  rw [hloop]
  constructor
  · intro h
    rw [if_neg (by simpa using h)]
  · intro h
    rw [if_pos (by simpa using h)]

theorem C4_witness :
    load_validate [PyVal.dict [("question".data, PyVal.str "q".data),
                               ("answers".data, PyVal.list [])],
                   PyVal.int 3] =
      Except.ok ([PyVal.dict [("question".data, PyVal.str "q".data),
                              ("answers".data, PyVal.list [])]], [1]) :=
  (C4_validation _).1 (by
    rw [show [PyVal.dict [("question".data, PyVal.str "q".data),
                          ("answers".data, PyVal.list [])],
              PyVal.int 3].filter validate_json_entry
          = [PyVal.dict [("question".data, PyVal.str "q".data),
                         ("answers".data, PyVal.list [])]] from rfl]
    exact List.cons_ne_nil _ _)


theorem processFold_mem (f : Str) (data : List Entry) (Q : Entry → Prop) :
    ∀ acc : JSONCombiner × List Entry × Nat,
      (∀ pe ∈ acc.2.1, Q pe) → (∀ e ∈ data, Q (processEntry e)) →
      ∀ pe ∈ (data.foldl (processFileStep f) acc).2.1, Q pe := by
  induction data with
  | nil => intro acc hacc _ pe hpe; exact hacc pe hpe
  | cons e t ih =>
    intro acc hacc hdata pe hpe
    rw [List.foldl_cons] at hpe
    refine ih (processFileStep f acc e) ?_
      (fun e2 he2 => hdata e2 (List.mem_cons_of_mem e he2)) pe hpe
    intro pe2 hpe2
    simp only [processFileStep] at hpe2
    split at hpe2
    · exact hacc pe2 hpe2
    · simp only [List.mem_append, List.mem_singleton] at hpe2
      rcases hpe2 with h | h
      · exact hacc pe2 h
      · subst h
        exact hdata e (List.mem_cons_self e t)

theorem processEntry_question_str {e : Entry} {s : Str}
    (h : e.question = some (PyVal.str s)) :
    (processEntry e).question = some (PyVal.str (clean_html s)) := by
  simp [processEntry, h]

theorem processEntry_question_dict {e : Entry} {kvs : List (Str × PyVal)}
    (h : e.question = some (PyVal.dict kvs)) :
    (processEntry e).question = some (PyVal.dict
      [("content".data,
        PyVal.str (clean_html_v ((dGet kvs "content".data).getD (PyVal.str []))))]) := by
  simp [processEntry, h]

/-- Claim C3, amended: every entry retained by `process_file` is the
processed image of an input record; a bare-string question is kept as a
single cleaned-HTML string, but a wrapper-shaped question is kept as a
wrapper dict `{'content': cleaned}` — the wrapper shape is preserved, not
resolved to a plain string. -/
theorem C3_amended (c : JSONCombiner) (f : Str) (data : List Entry) :
    ∀ pe ∈ (process_file c f data).2, ∃ e ∈ data, pe = processEntry e ∧
      (∀ s, e.question = some (PyVal.str s) →
        pe.question = some (PyVal.str (clean_html s))) ∧
      (∀ kvs, e.question = some (PyVal.dict kvs) →
        pe.question = some (PyVal.dict
          [("content".data, PyVal.str
            (clean_html_v ((dGet kvs "content".data).getD (PyVal.str []))))])) := by
  intro pe hpe
  unfold process_file at hpe
  refine processFold_mem f data
    (fun pe => ∃ e ∈ data, pe = processEntry e ∧
      (∀ s, e.question = some (PyVal.str s) →
        pe.question = some (PyVal.str (clean_html s))) ∧
      (∀ kvs, e.question = some (PyVal.dict kvs) →
        pe.question = some (PyVal.dict
          [("content".data, PyVal.str
            (clean_html_v ((dGet kvs "content".data).getD (PyVal.str []))))])))
    (c, [], 0) (fun pe2 hpe2 => absurd hpe2 (List.not_mem_nil pe2)) ?_ pe hpe
  intro e he
  refine ⟨e, he, rfl, ?_, ?_⟩
  · intro s hs; exact processEntry_question_str hs
  · intro kvs hk; exact processEntry_question_dict hk

/-- Claim C3, counterexample: a record whose question is the wrapper object
`{'content': '<p>q</p>'}` is retained by `process_file` with its question
still a wrapper dict — not a plain cleaned string as the claim asserts. -/
theorem C3_counterexample :
    (process_file {} "f".data
      [{ question := some (PyVal.dict
           [("content".data, PyVal.str "<p>q</p>".data)]),
         answers := some [] }]).2
      = [{ question := some (PyVal.dict
             [("content".data, PyVal.str "<p>q</p>".data)]),
           answers := some [] }] ∧
    ∀ s : Str, some (PyVal.dict [("content".data, PyVal.str "<p>q</p>".data)])
      ≠ some (PyVal.str s) := by
  refine ⟨rfl, ?_⟩
  intro s h
  simp at h

theorem C3_amended_witness :
    ∃ e ∈ [({ question := some (PyVal.str "<p>z</p>".data),
              answers := Option.none } : Entry)],
      ({ question := some (PyVal.str "<p>z</p>".data),
         answers := Option.none } : Entry) = processEntry e ∧
      (∀ s, e.question = some (PyVal.str s) →
        ({ question := some (PyVal.str "<p>z</p>".data),
           answers := Option.none } : Entry).question
          = some (PyVal.str (clean_html s))) ∧
      (∀ kvs, e.question = some (PyVal.dict kvs) →
        ({ question := some (PyVal.str "<p>z</p>".data),
           answers := Option.none } : Entry).question
          = some (PyVal.dict
            [("content".data, PyVal.str
              (clean_html_v ((dGet kvs "content".data).getD (PyVal.str []))))])) :=
  C3_amended {} "f".data
    [{ question := some (PyVal.str "<p>z</p>".data), answers := Option.none }]
    { question := some (PyVal.str "<p>z</p>".data), answers := Option.none }
    (by rw [show (process_file {} "f".data
          [{ question := some (PyVal.str "<p>z</p>".data),
             answers := Option.none }]).2
        = [{ question := some (PyVal.str "<p>z</p>".data),
             answers := Option.none }] from rfl]
        exact List.mem_cons_self _ _)


theorem processFileStep_unique (f : Str) (acc : JSONCombiner × List Entry × Nat)
    (e : Entry) :
    (processFileStep f acc e).1.unique_entries = acc.1.unique_entries := by
  simp only [processFileStep]
  split <;> rfl

theorem processFold_unique (f : Str) (data : List Entry) :
    ∀ acc, (data.foldl (processFileStep f) acc).1.unique_entries
      = acc.1.unique_entries := by
  induction data with
  | nil => intro acc; rfl
  | cons e t ih =>
    intro acc
    rw [List.foldl_cons, ih, processFileStep_unique]

theorem process_file_unique (c : JSONCombiner) (f : Str) (data : List Entry) :
    (process_file c f data).1.unique_entries = c.unique_entries :=
  processFold_unique f data (c, [], 0)

theorem combineFold_total (files : List (Str × List Entry)) :
    ∀ acc : JSONCombiner × List (Str × Nat) × Nat,
      acc.1.unique_entries.length = acc.2.2 →
      (files.foldl combineStep acc).1.unique_entries.length
        = (files.foldl combineStep acc).2.2 := by
  induction files with
  | nil => intro acc h; exact h
  | cons fp t ih =>
    intro acc h
    rw [List.foldl_cons]
    refine ih (combineStep acc fp) ?_
    simp only [combineStep, List.length_append]
    rw [process_file_unique]
    omega

/-- The end-to-end scenario of the spec: a first file with one record, and a
second file whose only record has the same question up to HTML whitespace
and a different answer. -/
def c1File1 : Str × List Entry :=
  ("f1".data,
   [{ question := some (PyVal.str "<p>What is X?</p>".data),
      answers := some [PyVal.str "<p>X is Y</p>".data] }])

/-- The second file of the scenario (reformatted question, different
answer). -/
def c1File2 : Str × List Entry :=
  ("f2".data,
   [{ question := some (PyVal.str "<p>What   is  X?</p>".data),
      answers := some [PyVal.str "<p>X is Z</p>".data] }])

/-- Claim C1 is a code bug: `combine_files` computes the per-file
"original" counts and the total from the value returned by `process_file`,
which has already dropped duplicates, so `duplicates_removed` is identically
zero for a fresh combiner; on the spec's end-to-end scenario the code keeps
one unique entry (with the first file's answers) and records the duplicate
location, yet reports `duplicates_removed = 0`, `total_original_entries = 1`
and per-file counts `f1 ↦ 1`, `f2 ↦ 0`, contradicting the claimed
pre-deduplication counts and `duplicates_removed == 1`. -/
theorem C1_stats_bug :
    (∀ files : List (Str × List Entry),
       (combine_files {} files).2.duplicates_removed = 0) ∧
    (combine_files {} [c1File1, c1File2]).1.unique_entries
      = [{ question := some (PyVal.str "<p>What is X?</p>".data),
           answers := some [PyVal.str "<p>X is Y</p>".data] }] ∧
    (combine_files {} [c1File1, c1File2]).2.unique_count = 1 ∧
    (combine_files {} [c1File1, c1File2]).2.duplicates_removed = 0 ∧
    (combine_files {} [c1File1, c1File2]).2.total_original_entries = 1 ∧
    (combine_files {} [c1File1, c1File2]).2.original_file_counts
      = [("f1".data, 1), ("f2".data, 0)] ∧
    (combine_files {} [c1File1, c1File2]).2.duplicate_indices
      = [(md5hex "what is x?".data, [(0, "f2".data)])] := by
  constructor
  · intro files
    have h := combineFold_total files ({}, [], 0) rfl
    simp only [combine_files]
    omega
  · exact ⟨rfl, rfl, rfl, rfl, rfl, rfl⟩

/-- A record with no usable question: the field is absent, or is neither a
string nor a wrapper dict carrying a `content` key. -/
def questionless (e : Entry) : Bool :=
  match e.question with
  | Option.none => true
  | some (PyVal.str _) => false
  | some (PyVal.dict kvs) => (dGet kvs "content".data).isNone
  | some _ => true

theorem questionless_canonical {e : Entry} (h : questionless e = true) :
    extract_question_content (processEntry e) = [] ∧
    hash_entry (processEntry e) = md5hex [] := by
  suffices hx : extract_question_content (processEntry e) = [] by
    refine ⟨hx, ?_⟩
    unfold hash_entry
    rw [hx]
  rcases e with ⟨q, a⟩
  rcases q with _ | v
  · rfl
  · rcases v with s | kvs | xs | n | b | _
    · simp [questionless] at h
    · simp only [questionless] at h
      have hd : dGet kvs "content".data = Option.none :=
        Option.isNone_iff_eq_none.mp h
      simp only [extract_question_content, processEntry, hd]
      rfl
    · rfl
    · rfl
    · rfl
    · rfl

/-- Invariant of the deduplication loop: the retained entries (already moved
to `unique_entries`, plus the pending ones of the current file) have
pairwise distinct hashes, and every such hash is recorded in `hash_set`. -/
def hashInv (c : JSONCombiner) (pes : List Entry) : Prop :=
  ((c.unique_entries ++ pes).map hash_entry).Nodup ∧
  ∀ pe ∈ c.unique_entries ++ pes, c.hash_set.contains (hash_entry pe) = true

theorem contains_append_left {l m : List Str} {x : Str}
    (h : l.contains x = true) : (l ++ m).contains x = true :=
  List.elem_iff.mpr (List.mem_append_left m (List.elem_iff.mp h))

theorem contains_append_self (l : List Str) (x : Str) :
    (l ++ [x]).contains x = true :=
  List.elem_iff.mpr (List.mem_append_right l (List.mem_singleton_self x))

theorem step_hashInv (f : Str) (acc : JSONCombiner × List Entry × Nat)
    (e : Entry) (h : hashInv acc.1 acc.2.1) :
    hashInv (processFileStep f acc e).1 (processFileStep f acc e).2.1 := by
  obtain ⟨h1, h2⟩ := h
  simp only [processFileStep]
  split
  · exact ⟨h1, h2⟩
  · rename_i hcon
    constructor
    · rw [← List.append_assoc, List.map_append, List.nodup_append]
      refine ⟨h1, List.nodup_singleton _, ?_⟩
      intro x hx hy
      simp only [List.map_cons, List.map_nil, List.mem_singleton] at hy
      subst hy
      rcases List.mem_map.mp hx with ⟨pe, hpe, hh⟩
      exact hcon (hh ▸ h2 pe hpe)
    · intro pe hpe
      rw [← List.append_assoc] at hpe
      rcases List.mem_append.mp hpe with hm | hm
      · exact contains_append_left (h2 pe hm)
      · rw [List.mem_singleton.mp hm]
        exact contains_append_self _ _
  
theorem processFold_hashInv (f : Str) (data : List Entry) :
    ∀ acc, hashInv acc.1 acc.2.1 →
      hashInv (data.foldl (processFileStep f) acc).1
        (data.foldl (processFileStep f) acc).2.1 := by
  induction data with
  | nil => intro acc h; exact h
  | cons e t ih =>
    intro acc h
    rw [List.foldl_cons]
    exact ih _ (step_hashInv f acc e h)

theorem combineFold_hashInv (files : List (Str × List Entry)) :
    ∀ acc : JSONCombiner × List (Str × Nat) × Nat, hashInv acc.1 [] →
      hashInv (files.foldl combineStep acc).1 [] := by
  induction files with
  | nil => intro acc h; exact h
  | cons fp t ih =>
    intro acc h
    rw [List.foldl_cons]
    refine ih _ ?_
    have h2 := processFold_hashInv fp.1 fp.2 (acc.1, [], 0) (by simpa using h)
    simp only [combineStep, hashInv, process_file]
    constructor
    · simpa using h2.1
    · intro pe hpe
      refine h2.2 pe ?_
      simpa using hpe

theorem filter_hash_le_one {l : List Entry} (X : Str)
    (h : (l.map hash_entry).Nodup) :
    (l.filter (fun pe => hash_entry pe == X)).length ≤ 1 := by
  induction l with
  | nil => simp
  | cons a t ih =>
    simp only [List.map_cons, List.nodup_cons] at h
    by_cases ha : (hash_entry a == X) = true
    · have hstep : (a :: t).filter (fun pe => hash_entry pe == X)
          = a :: t.filter (fun pe => hash_entry pe == X) := by
        simp only [List.filter_cons, ha, if_true]
      have ht : t.filter (fun pe => hash_entry pe == X) = [] := by
        rw [List.filter_eq_nil_iff]
        intro pe hpe hbeq
        have hx : hash_entry pe = X := by
          simpa using hbeq
        have hax : hash_entry a = X := by simpa using ha
        exact h.1 (hax ▸ hx ▸ List.mem_map_of_mem hash_entry hpe)
      rw [hstep, ht]
      simp
    · have hstep : (a :: t).filter (fun pe => hash_entry pe == X)
          = t.filter (fun pe => hash_entry pe == X) := by
        simp [List.filter_cons, ha]
      rw [hstep]
      exact ih h.2

/-- Number of questionless records in a list. -/
def qlCount (l : List Entry) : Nat := (l.filter questionless).length

/-- Number of retained entries (moved plus pending) whose dedup hash is
`X`. -/
def keptHashCount (c : JSONCombiner) (pes : List Entry) (X : Str) : Nat :=
  ((c.unique_entries ++ pes).filter (fun pe => hash_entry pe == X)).length

/-- Total number of duplicate locations recorded under hash `X`. -/
def dupLocCount (d : List (Str × List (Nat × Str))) (X : Str) : Nat :=
  ((d.filter (fun a => a.1 == X)).map (fun a => a.2.length)).sum

theorem dupLocCount_cons (a : Str × List (Nat × Str)) (d : List _) (X : Str) :
    dupLocCount (a :: d) X
      = (if a.1 == X then a.2.length else 0) + dupLocCount d X := by
  unfold dupLocCount
  by_cases h : (a.1 == X) = true
  · simp [List.filter_cons, h]
  · simp [List.filter_cons, h]

theorem dupLocCount_mapUpd_ge (d : List (Str × List (Nat × Str)))
    (h' X : Str) (loc : Nat × Str) :
    dupLocCount d X ≤
      dupLocCount (d.map (fun a => if a.1 = h' then (a.1, a.2 ++ [loc]) else a)) X := by
  induction d with
  | nil => exact Nat.le_refl _
  | cons a t ih =>
    rw [List.map_cons, dupLocCount_cons, dupLocCount_cons]
    by_cases hk : a.1 = h'
    · rw [if_pos hk]
      by_cases hx : (a.1 == X) = true
      · simp only [hx, if_true, List.length_append, List.length_singleton]
        omega
      · rw [if_neg hx, if_neg hx]
        omega
    · rw [if_neg hk]
      omega

theorem dupLocCount_mapUpd_succ (d : List (Str × List (Nat × Str)))
    (X : Str) (loc : Nat × Str) (hany : d.any (fun a => a.1 = X) = true) :
    dupLocCount d X + 1 ≤
      dupLocCount (d.map (fun a => if a.1 = X then (a.1, a.2 ++ [loc]) else a)) X := by
  induction d with
  | nil => simp at hany
  | cons a t ih =>
    rw [List.map_cons, dupLocCount_cons, dupLocCount_cons]
    by_cases hk : a.1 = X
    · rw [if_pos hk]
      have hx : (a.1 == X) = true := by simpa using hk
      simp only [hx, if_true, List.length_append, List.length_singleton]
      have := dupLocCount_mapUpd_ge t X X loc
      omega
    · rw [if_neg hk]
      have hany' : t.any (fun a => a.1 = X) = true := by
        rcases List.any_eq_true.mp hany with ⟨b, hb, hbk⟩
        rcases List.mem_cons.mp hb with hb | hb
        · subst hb
          exact absurd (of_decide_eq_true hbk) hk
        · exact List.any_eq_true.mpr ⟨b, hb, hbk⟩
      have := ih hany'
      omega

theorem dupLocCount_dupAppend_mono (d : List (Str × List (Nat × Str)))
    (h' X : Str) (loc : Nat × Str) :
    dupLocCount d X ≤ dupLocCount (dupAppend d h' loc) X := by
  unfold dupAppend
  by_cases hany : d.any (fun a => a.1 = h') = true
  · rw [if_pos hany]
    exact dupLocCount_mapUpd_ge d h' X loc
  · rw [if_neg hany]
    unfold dupLocCount
    rw [List.filter_append, List.map_append, List.sum_append]
    omega

theorem dupLocCount_dupAppend_self (d : List (Str × List (Nat × Str)))
    (X : Str) (loc : Nat × Str) :
    dupLocCount d X + 1 ≤ dupLocCount (dupAppend d X loc) X := by
  unfold dupAppend
  by_cases hany : d.any (fun a => a.1 = X) = true
  · rw [if_pos hany]
    exact dupLocCount_mapUpd_succ d X loc hany
  · rw [if_neg hany]
    unfold dupLocCount
    rw [List.filter_append, List.map_append, List.sum_append]
    have : (([(X, [loc])].filter (fun a => a.1 == X)).map
        (fun a => a.2.length)).sum = 1 := by simp
    omega

theorem keptHash_append (c : JSONCombiner) (pes : List Entry) (pe : Entry)
    (X : Str) :
    keptHashCount c (pes ++ [pe]) X
      = keptHashCount c pes X + (if hash_entry pe == X then 1 else 0) := by
  unfold keptHashCount
  rw [← List.append_assoc, List.filter_append, List.length_append]
  by_cases h : (hash_entry pe == X) = true
  · simp [List.filter_cons, h]
  · simp [List.filter_cons, h]

theorem keptHashCount_set_dup (c : JSONCombiner) (d : List (Str × List (Nat × Str))) (pes : List Entry) (X : Str) : keptHashCount { c with duplicate_indices := d } pes X = keptHashCount c pes X := rfl

theorem keptHashCount_set_hs (c : JSONCombiner) (hs : List Str) (pes : List Entry) (X : Str) : keptHashCount { c with hash_set := hs } pes X = keptHashCount c pes X := rfl

theorem dupLoc_set_hs (c : JSONCombiner) (hs : List Str) (X : Str) : dupLocCount ({ c with hash_set := hs } : JSONCombiner).duplicate_indices X = dupLocCount c.duplicate_indices X := rfl

theorem dupLoc_set_dup (c : JSONCombiner) (d : List (Str × List (Nat × Str))) (X : Str) : dupLocCount ({ c with duplicate_indices := d } : JSONCombiner).duplicate_indices X = dupLocCount d X := rfl

theorem step_qless_dup (c : JSONCombiner) (pes : List Entry) (idx : Nat)
    (f : Str) (e : Entry) :
    keptHashCount c pes (md5hex []) + dupLocCount c.duplicate_indices (md5hex [])
      + (if questionless e then 1 else 0)
    ≤ keptHashCount { c with duplicate_indices := dupAppend c.duplicate_indices (hash_entry (processEntry e)) (idx, f) } pes (md5hex [])
      + dupLocCount ({ c with duplicate_indices := dupAppend c.duplicate_indices (hash_entry (processEntry e)) (idx, f) } : JSONCombiner).duplicate_indices (md5hex []) := by
  have h1 : keptHashCount { c with duplicate_indices := dupAppend c.duplicate_indices (hash_entry (processEntry e)) (idx, f) } pes (md5hex []) = keptHashCount c pes (md5hex []) := rfl
  have h2 : dupLocCount ({ c with duplicate_indices := dupAppend c.duplicate_indices (hash_entry (processEntry e)) (idx, f) } : JSONCombiner).duplicate_indices (md5hex []) = dupLocCount (dupAppend c.duplicate_indices (hash_entry (processEntry e)) (idx, f)) (md5hex []) := rfl
  rw [h1, h2]
  by_cases hq : questionless e = true
  · have hh := (questionless_canonical hq).2
    rw [hq, if_pos rfl, hh]
    have := dupLocCount_dupAppend_self c.duplicate_indices (md5hex []) (idx, f)
    omega
  · rw [if_neg hq]
    have := dupLocCount_dupAppend_mono c.duplicate_indices
      (hash_entry (processEntry e)) (md5hex []) (idx, f)
    omega

theorem step_qless_new (c : JSONCombiner) (pes : List Entry) (f : Str)
    (e : Entry) :
    keptHashCount c pes (md5hex []) + dupLocCount c.duplicate_indices (md5hex [])
      + (if questionless e then 1 else 0)
    ≤ keptHashCount { c with hash_set := c.hash_set ++ [hash_entry (processEntry e)] } (pes ++ [processEntry e]) (md5hex [])
      + dupLocCount ({ c with hash_set := c.hash_set ++ [hash_entry (processEntry e)] } : JSONCombiner).duplicate_indices (md5hex []) := by
  have h1 : keptHashCount { c with hash_set := c.hash_set ++ [hash_entry (processEntry e)] } (pes ++ [processEntry e]) (md5hex []) = keptHashCount c (pes ++ [processEntry e]) (md5hex []) := rfl
  have h2 : dupLocCount ({ c with hash_set := c.hash_set ++ [hash_entry (processEntry e)] } : JSONCombiner).duplicate_indices (md5hex []) = dupLocCount c.duplicate_indices (md5hex []) := rfl
  rw [h1, h2, keptHash_append]
  by_cases hq : questionless e = true
  · have hh := (questionless_canonical hq).2
    rw [hq, if_pos rfl]
    have hx : (hash_entry (processEntry e) == md5hex []) = true := by
      simpa using hh
    rw [if_pos hx]
    omega
  · rw [if_neg hq]
    omega

theorem step_qless (f : Str) (acc : JSONCombiner × List Entry × Nat)
    (e : Entry) :
    keptHashCount acc.1 acc.2.1 (md5hex [])
      + dupLocCount acc.1.duplicate_indices (md5hex [])
      + (if questionless e then 1 else 0)
    ≤ keptHashCount (processFileStep f acc e).1 (processFileStep f acc e).2.1
        (md5hex [])
      + dupLocCount (processFileStep f acc e).1.duplicate_indices (md5hex []) := by
  by_cases hc : acc.1.hash_set.contains (hash_entry (processEntry e)) = true
  · simp only [processFileStep, hc, if_true]
    exact step_qless_dup acc.1 acc.2.1 acc.2.2 f e
  · simp only [processFileStep, hc, if_false, Bool.false_eq_true]
    exact step_qless_new acc.1 acc.2.1 f e

theorem qlCount_cons (e : Entry) (t : List Entry) :
    qlCount (e :: t) = (if questionless e then 1 else 0) + qlCount t := by
  unfold qlCount
  by_cases h : questionless e = true
  · simp only [List.filter_cons, h, if_true, List.length_cons]
    omega
  · simp [List.filter_cons, h]

theorem processFold_qless (f : Str) (data : List Entry) :
    ∀ acc,
      keptHashCount acc.1 acc.2.1 (md5hex [])
        + dupLocCount acc.1.duplicate_indices (md5hex []) + qlCount data
      ≤ keptHashCount (data.foldl (processFileStep f) acc).1
          (data.foldl (processFileStep f) acc).2.1 (md5hex [])
        + dupLocCount (data.foldl (processFileStep f) acc).1.duplicate_indices
            (md5hex []) := by
  induction data with
  | nil =>
    intro acc
    simp [qlCount]
  | cons e t ih =>
    intro acc
    rw [List.foldl_cons, qlCount_cons]
    have h1 := step_qless f acc e
    have h2 := ih (processFileStep f acc e)
    omega

theorem combineFold_qless (files : List (Str × List Entry)) :
    ∀ acc : JSONCombiner × List (Str × Nat) × Nat,
      keptHashCount acc.1 [] (md5hex [])
        + dupLocCount acc.1.duplicate_indices (md5hex [])
        + (files.map (fun fp => qlCount fp.2)).sum
      ≤ keptHashCount (files.foldl combineStep acc).1 [] (md5hex [])
        + dupLocCount (files.foldl combineStep acc).1.duplicate_indices
            (md5hex []) := by
  induction files with
  | nil =>
    intro acc
    simp
  | cons fp t ih =>
    intro acc
    rw [List.foldl_cons, List.map_cons, List.sum_cons]
    have h1 := processFold_qless fp.1 fp.2 (acc.1, [], 0)
    have h2 := ih (combineStep acc fp)
    have hkeq : keptHashCount (combineStep acc fp).1 [] (md5hex [])
        = keptHashCount ((fp.2.foldl (processFileStep fp.1) (acc.1, [], 0)).1)
            ((fp.2.foldl (processFileStep fp.1) (acc.1, [], 0)).2.1) (md5hex []) := by
      simp only [combineStep, keptHashCount, process_file, List.append_nil]
    have hdeq : dupLocCount (combineStep acc fp).1.duplicate_indices (md5hex [])
        = dupLocCount ((fp.2.foldl (processFileStep fp.1) (acc.1, [], 0)).1).duplicate_indices
            (md5hex []) := by
      simp only [combineStep, process_file]
    rw [hkeq, hdeq] at h2
    have hinit : keptHashCount (acc.1, ([] : List Entry), (0 : Nat)).1
        (acc.1, ([] : List Entry), (0 : Nat)).2.1 (md5hex [])
        = keptHashCount acc.1 [] (md5hex []) := rfl
    have hinit2 : dupLocCount ((acc.1, ([] : List Entry), (0 : Nat)).1).duplicate_indices (md5hex [])
        = dupLocCount acc.1.duplicate_indices (md5hex []) := rfl
    rw [hinit, hinit2] at h1
    omega

/-- Claim C10: a record whose question field is absent, or neither a string
nor a wrapper dict with a `content` key, canonicalizes to the empty string
and hashes to the one shared digest `md5("")`; across the whole input
sequence at most one entry with that shared hash is retained (so at most one
questionless record), and every questionless record beyond the single
retained slot is reported in the duplicate index under that shared hash. -/
theorem C10_questionless (files : List (Str × List Entry)) :
    (∀ e : Entry, questionless e = true →
       extract_question_content (processEntry e) = [] ∧
       hash_entry (processEntry e) = md5hex []) ∧
    ((combine_files {} files).1.unique_entries.filter
       (fun pe => hash_entry pe == md5hex [])).length ≤ 1 ∧
    (files.map (fun fp => qlCount fp.2)).sum
      ≤ 1 + dupLocCount (combine_files {} files).1.duplicate_indices
          (md5hex []) := by
  have hinv := combineFold_hashInv files ({}, [], 0)
    (by constructor
        · simp [JSONCombiner.unique_entries]
        · intro pe hpe
          simp at hpe)
  have hle := filter_hash_le_one (X := md5hex [])
    (l := (files.foldl combineStep ({}, [], 0)).1.unique_entries)
    (by have h := hinv.1
        simpa using h)
  refine ⟨fun e h => questionless_canonical h, ?_, ?_⟩
  · simpa [combine_files] using hle
  · have h3 := combineFold_qless files ({}, [], 0)
    have hinit : keptHashCount ({} : JSONCombiner) [] (md5hex []) = 0 := rfl
    have hinit2 : dupLocCount ({} : JSONCombiner).duplicate_indices (md5hex [])
        = 0 := rfl
    rw [hinit, hinit2] at h3
    have hK : keptHashCount (files.foldl combineStep ({}, [], 0)).1 [] (md5hex [])
        ≤ 1 := by
      unfold keptHashCount
      simpa using hle
    simp only [combine_files]
    omega

theorem C10_witness :
    extract_question_content (processEntry
      { question := Option.none, answers := Option.none }) = [] ∧
    hash_entry (processEntry
      { question := Option.none, answers := Option.none }) = md5hex [] :=
  (C10_questionless []).1 { question := Option.none, answers := Option.none } rfl

/-! ## C7: the cleaned tree keeps only allowed tags, href-only anchors,
and no notice elements -/

/-- Attribute discipline of the cleaned tree: an `a` element carries only
`href` attributes, every other element carries none. -/
def attrsOnlyHref (nm : Str) (attrs : List (Str × Option Str)) : Bool :=
  if nm = "a".data then attrs.all (fun a => a.1 == "href".data)
  else attrs.isEmpty

mutual

/-- No element in this subtree carries the notice marker class. -/
def noticeFreeN : HNode → Bool
  | .elem _ attrs cs => !(isNotice attrs) && noticeFreeF cs
  | _ => true

/-- No element in this forest carries the notice marker class. -/
def noticeFreeF : List HNode → Bool
  | [] => true
  | n :: ns => noticeFreeN n && noticeFreeF ns

end

mutual

/-- Every element in this subtree satisfies the attribute discipline. -/
def strippedN : HNode → Bool
  | .elem nm attrs cs => attrsOnlyHref nm attrs && strippedF cs
  | _ => true

/-- Every element in this forest satisfies the attribute discipline. -/
def strippedF : List HNode → Bool
  | [] => true
  | n :: ns => strippedN n && strippedF ns

end

mutual

/-- Cleanliness of one subtree: every element has an allowed tag name and
satisfies the attribute discipline. -/
def nodeOkC7 : HNode → Bool
  | .elem nm attrs cs =>
    allowedTags.contains nm && attrsOnlyHref nm attrs && forestOkC7 cs
  | _ => true

/-- Cleanliness of a forest. -/
def forestOkC7 : List HNode → Bool
  | [] => true
  | n :: ns => nodeOkC7 n && forestOkC7 ns

end

theorem noticeFreeF_append (A B : List HNode) :
    noticeFreeF (A ++ B) = (noticeFreeF A && noticeFreeF B) := by
  induction A with
  | nil => simp [noticeFreeF]
  | cons n ns ih => simp [noticeFreeF, ih, Bool.and_assoc]

theorem forestOkC7_append (A B : List HNode) :
    forestOkC7 (A ++ B) = (forestOkC7 A && forestOkC7 B) := by
  induction A with
  | nil => simp [forestOkC7]
  | cons n ns ih => simp [forestOkC7, ih, Bool.and_assoc]

mutual

theorem removeNoticesN_free (n : HNode) :
    noticeFreeF (removeNoticesN n) = true := by
  cases n with
  | elem nm attrs cs =>
    rw [removeNoticesN]
    by_cases h : isNotice attrs = true
    · rw [if_pos h]
      rfl
    · rw [if_neg h]
      have hcs := removeNotices_free cs
      simp [noticeFreeF, noticeFreeN, h, hcs]
  | text s => rfl
  | cmt s => rfl
  | dtd s => rfl
  | pri s => rfl

theorem removeNotices_free (F : List HNode) :
    noticeFreeF (removeNotices F) = true := by
  cases F with
  | nil => rfl
  | cons n ns =>
    rw [removeNotices, noticeFreeF_append]
    rw [removeNoticesN_free n, removeNotices_free ns]
    rfl

end

mutual

theorem stripAttrsN_ok (n : HNode) : strippedN (stripAttrsN n) = true := by
  cases n with
  | elem nm attrs cs =>
    rw [stripAttrsN]
    have hcs := stripAttrsF_ok cs
    by_cases h : nm = "a".data
    · have hall : (attrs.filter (fun a => a.1 = "href".data)).all
          (fun a => a.1 == "href".data) = true := by
        rw [List.all_eq_true]
        intro a ha
        exact beq_iff_eq.mpr (of_decide_eq_true (List.mem_filter.mp ha).2)
      simp [strippedN, attrsOnlyHref, h, hall, hcs]
    · simp [strippedN, attrsOnlyHref, h, hcs, List.isEmpty]
  | text s => rfl
  | cmt s => rfl
  | dtd s => rfl
  | pri s => rfl

theorem stripAttrsF_ok (F : List HNode) : strippedF (stripAttrsF F) = true := by
  cases F with
  | nil => rfl
  | cons n ns =>
    rw [stripAttrsF]
    simp [strippedF, stripAttrsN_ok n, stripAttrsF_ok ns]

end

mutual

theorem unwrapN_ok (n : HNode) (h : strippedN n = true) :
    forestOkC7 (unwrapN n) = true := by
  cases n with
  | elem nm attrs cs =>
    rw [strippedN, Bool.and_eq_true] at h
    rw [unwrapN]
    by_cases ha : allowedTags.contains nm = true
    · rw [if_pos ha]
      have hcs := unwrapF_ok cs h.2
      simp [forestOkC7, nodeOkC7, h.1, hcs]
      exact List.elem_iff.mp ha
    · rw [if_neg ha]
      exact unwrapF_ok cs h.2
  | text s => rfl
  | cmt s => rfl
  | dtd s => rfl
  | pri s => rfl

theorem unwrapF_ok (F : List HNode) (h : strippedF F = true) :
    forestOkC7 (unwrapDisallowed F) = true := by
  cases F with
  | nil => rfl
  | cons n ns =>
    rw [strippedF, Bool.and_eq_true] at h
    rw [unwrapDisallowed, forestOkC7_append]
    rw [unwrapN_ok n h.1, unwrapF_ok ns h.2]
    rfl

end

theorem attrsOnlyHref_notNotice (nm : Str) (attrs : List (Str × Option Str))
    (h : attrsOnlyHref nm attrs = true) : isNotice attrs = false := by
  unfold attrsOnlyHref at h
  by_cases ha : nm = "a".data
  · rw [if_pos ha, List.all_eq_true] at h
    have hfind : attrs.find? (fun a => a.1 = "class".data) = none := by
      rw [List.find?_eq_none]
      intro a hmem
      have hhref : a.1 = "href".data := eq_of_beq (h a hmem)
      simp only [hhref]
      decide
    unfold isNotice lookupAttr
    rw [hfind]
  · rw [if_neg ha] at h
    have : attrs = [] := List.isEmpty_iff.mp h
    subst this
    rfl

mutual

theorem nodeOkC7_noticeFree (n : HNode) (h : nodeOkC7 n = true) :
    noticeFreeN n = true := by
  cases n with
  | elem nm attrs cs =>
    rw [nodeOkC7, Bool.and_eq_true, Bool.and_eq_true] at h
    have hno := attrsOnlyHref_notNotice nm attrs h.1.2
    have hcs := forestOkC7_noticeFree cs h.2
    simp [noticeFreeN, hno, hcs]
  | text s => rfl
  | cmt s => rfl
  | dtd s => rfl
  | pri s => rfl

theorem forestOkC7_noticeFree (F : List HNode) (h : forestOkC7 F = true) :
    noticeFreeF F = true := by
  cases F with
  | nil => rfl
  | cons n ns =>
    rw [forestOkC7, Bool.and_eq_true] at h
    rw [noticeFreeF, nodeOkC7_noticeFree n h.1, forestOkC7_noticeFree ns h.2]
    rfl

end

/-- Claim C7: `clean_html` serializes a forest in which every element has a
tag name in the allowed set (p, code, a), every `a` element carries only
`href` attributes and every other element carries none, no element carries
the notice marker class, and the decompose stage alone already removed every
notice element together with its whole subtree. -/
theorem C7_clean_invariant (s : Str) :
    ∃ F : List HNode,
      clean_html s = pyStrip (collapseWs (serForest F)) ∧
      F = unwrapDisallowed (stripAttrsF (removeNotices (parseHtml s))) ∧
      forestOkC7 F = true ∧
      noticeFreeF F = true ∧
      noticeFreeF (removeNotices (parseHtml s)) = true := by
  refine ⟨unwrapDisallowed (stripAttrsF (removeNotices (parseHtml s))),
    rfl, rfl, ?_, ?_, removeNotices_free (parseHtml s)⟩
  · exact unwrapF_ok _ (stripAttrsF_ok _)
  · exact forestOkC7_noticeFree _ (unwrapF_ok _ (stripAttrsF_ok _))

/-! ## C5: model of `json.loads` and the structural repair

`load_json_safely` feeds the repaired text to `json.loads`.  We model the
JSON grammar with raw number lexemes (no float semantics), fuel-bounded
recursion for nesting, and the `json` module whitespace class
(space, tab, newline, carriage return).  Strict-mode rejection of raw
control characters inside strings and of trailing commas is modelled. -/

/-- JSON values; numbers keep their raw lexeme. -/
inductive JVal where
  | jstr (s : Str)
  | jnum (s : Str)
  | jbool (b : Bool)
  | jnull
  | jarr (l : List JVal)
  | jobj (l : List (Str × JVal))

/-- The whitespace accepted between JSON tokens by `json.loads`. -/
def jsonWsC (c : Char) : Bool := c = ' ' || c = '\t' || c = '\n' || c = '\r'

/-- Skip inter-token whitespace. -/
def skipJWs (s : Str) : Str := s.dropWhile jsonWsC

/-- Characters that may continue a number lexeme. -/
def numChar (c : Char) : Bool :=
  isDigitC c || c = '.' || c = 'e' || c = 'E' || c = '+' || c = '-'

/-- JSON backslash escape map (short escapes). -/
def escChar (e : Char) : Option Char :=
  if e = '"' then some '"'
  else if e = '\\' then some '\\'
  else if e = '/' then some '/'
  else if e = 'b' then some (Char.ofNat 8)
  else if e = 'f' then some (Char.ofNat 12)
  else if e = 'n' then some '\n'
  else if e = 'r' then some (Char.ofNat 13)
  else if e = 't' then some '\t'
  else Option.none

/-- Parse the body of a string literal after the opening quote: plain
characters up to the closing quote, backslash escapes decoded, raw control
characters rejected (`strict=True`). -/
def parseJStr : Str → Option (Str × Str)
  | [] => Option.none
  | c :: r =>
    if c = '"' then some ([], r)
    else if c = '\\' then
      match r with
      | [] => Option.none
      | e :: r2 =>
        if e = 'u' then
          match r2 with
          | h1 :: h2 :: h3 :: h4 :: r3 =>
            if isHexC h1 && isHexC h2 && isHexC h3 && isHexC h4 then
              match parseJStr r3 with
              | some p =>
                some (charRefChar (digitsVal 16 [h1, h2, h3, h4]) :: p.1, p.2)
              | Option.none => Option.none
            else Option.none
          | _ => Option.none
        else
          match escChar e with
          | some d =>
            match parseJStr r2 with
            | some p => some (d :: p.1, p.2)
            | Option.none => Option.none
          | Option.none => Option.none
    else if c.toNat < 32 then Option.none
    else
      match parseJStr r with
      | some p => some (c :: p.1, p.2)
      | Option.none => Option.none

mutual

/-- Parse one JSON value (input already whitespace-skipped on entry via
`skipJWs`); the fuel bounds the recursion. -/
def parseJV : Nat → Str → Option (JVal × Str)
  | 0, _ => Option.none
  | f + 1, s =>
    match skipJWs s with
    | [] => Option.none
    | c :: r =>
      if c = '"' then
        match parseJStr r with
        | some p => some (.jstr p.1, p.2)
        | Option.none => Option.none
      else if c = '{' then
        match parseJMems f (skipJWs r) true with
        | some p => some (.jobj p.1, p.2)
        | Option.none => Option.none
      else if c = '[' then
        match parseJElems f (skipJWs r) true with
        | some p => some (.jarr p.1, p.2)
        | Option.none => Option.none
      else if c = 't' then
        if r.take 3 = "rue".data then some (.jbool true, r.drop 3)
        else Option.none
      else if c = 'f' then
        if r.take 4 = "alse".data then some (.jbool false, r.drop 4)
        else Option.none
      else if c = 'n' then
        if r.take 3 = "ull".data then some (.jnull, r.drop 3) else Option.none
      else if isDigitC c || c = '-' then
        let t := (c :: r).takeWhile numChar
        some (.jnum t, (c :: r).drop t.length)
      else Option.none

/-- Parse the members of an object after `{` (input whitespace-skipped);
`first` is true before any member has been read, so that `}` closes an
empty object but a trailing comma is rejected. -/
def parseJMems : Nat → Str → Bool → Option (List (Str × JVal) × Str)
  | 0, _, _ => Option.none
  | f + 1, s, first =>
    match s with
    | '}' :: r => if first then some ([], r) else Option.none
    | '"' :: r =>
      match parseJStr r with
      | some kp =>
        match skipJWs kp.2 with
        | ':' :: r2 =>
          match parseJV f r2 with
          | some vp =>
            match skipJWs vp.2 with
            | ',' :: r3 =>
              match parseJMems f (skipJWs r3) false with
              | some mp => some ((kp.1, vp.1) :: mp.1, mp.2)
              | Option.none => Option.none
            | '}' :: r3 => some ([(kp.1, vp.1)], r3)
            | _ => Option.none
          | Option.none => Option.none
        | _ => Option.none
      | Option.none => Option.none
    | _ => Option.none

/-- Parse the elements of an array after `[` (input whitespace-skipped). -/
def parseJElems : Nat → Str → Bool → Option (List JVal × Str)
  | 0, _, _ => Option.none
  | f + 1, s, first =>
    match s with
    | ']' :: r => if first then some ([], r) else Option.none
    | _ =>
      match parseJV f s with
      | some vp =>
        match skipJWs vp.2 with
        | ',' :: r2 =>
          match parseJElems f (skipJWs r2) false with
          | some ep => some (vp.1 :: ep.1, ep.2)
          | Option.none => Option.none
        | ']' :: r2 => some ([vp.1], r2)
        | _ => Option.none
      | Option.none => Option.none

end

/-- Model of `json.loads`: parse one value and require only whitespace
after it. -/
def json_loads (s : Str) : Option JVal :=
  match parseJV (s.length + 1) s with
  | some p => if skipJWs p.2 = [] then some p.1 else Option.none
  | Option.none => Option.none

mutual

/-- Canonical compact rendering of a JSON value (as `json.dumps` with
default separators but no spaces would print escape-free data). -/
def renderJ : JVal → Str
  | .jstr s => '"' :: s ++ ['"']
  | .jnum s => s
  | .jbool true => "true".data
  | .jbool false => "false".data
  | .jnull => "null".data
  | .jarr l => '[' :: renderL l ++ [']']
  | .jobj l => '{' :: renderM l ++ ['}']

/-- Comma-separated rendering of a list of values. -/
def renderL : List JVal → Str
  | [] => []
  | [v] => renderJ v
  | v :: t => renderJ v ++ ',' :: renderL t

/-- Comma-separated rendering of object members. -/
def renderM : List (Str × JVal) → Str
  | [] => []
  | [(k, v)] => '"' :: k ++ '"' :: ':' :: renderJ v
  | (k, v) :: t => '"' :: k ++ '"' :: ':' :: renderJ v ++ ',' :: renderM t

end

/-- Characters allowed inside rendered string literals: printable, not a
quote, backslash, brace, bracket or comma (so string content cannot feed
the two repair regexes or the string lexer escapes). -/
def safeChar (c : Char) : Bool :=
  32 ≤ c.toNat && !(c = '"' || c = '\\' || c = '\x7b' || c = '\x7d' ||
    c = '[' || c = ']' || c = ',')

mutual

/-- Renderable values: safe string content, numbers that are nonempty digit
runs. -/
def jwf : JVal → Bool
  | .jstr s => s.all safeChar
  | .jnum s => !s.isEmpty && s.all isDigitC
  | .jbool _ => true
  | .jnull => true
  | .jarr l => jwfL l
  | .jobj l => jwfM l

/-- Renderability of a list of values. -/
def jwfL : List JVal → Bool
  | [] => true
  | v :: t => jwf v && jwfL t

/-- Renderability of object members. -/
def jwfM : List (Str × JVal) → Bool
  | [] => true
  | (k, v) :: t => k.all safeChar && jwf v && jwfM t

end

mutual

/-- Fuel needed to parse a rendered value. -/
def jfuel : JVal → Nat
  | .jstr _ => 1
  | .jnum _ => 1
  | .jbool _ => 1
  | .jnull => 1
  | .jarr l => 1 + jfuelL l
  | .jobj l => 1 + jfuelM l

/-- Fuel needed for the element loop. -/
def jfuelL : List JVal → Nat
  | [] => 1
  | [v] => 1 + jfuel v
  | v :: t => 1 + jfuel v + jfuelL t

/-- Fuel needed for the member loop. -/
def jfuelM : List (Str × JVal) → Nat
  | [] => 1
  | [(_, v)] => 1 + jfuel v
  | (_, v) :: t => 1 + jfuel v + jfuelM t

end

/-- Pairs of adjacent characters at which the missing-comma regex
`\x7d\s*\x7b` can make progress: a closing brace followed by whitespace or an
opening brace. -/
def okPairMC (a b : Char) : Prop :=
  ¬(a = '\x7d' ∧ (pySpace b = true ∨ b = '\x7b'))

/-- Pairs of adjacent characters at which the trailing-comma regex can make
progress: a comma followed by whitespace or a closing bracket. -/
def okPairTC (a b : Char) : Prop :=
  ¬(a = ',' ∧ (pySpace b = true ∨ b = '\x7d' ∨ b = ']'))

/-- Both pair conditions at once (established over rendered JSON). -/
def okPairJ (a b : Char) : Prop := okPairMC a b ∧ okPairTC a b

instance (a b : Char) : Decidable (okPairMC a b) :=
  inferInstanceAs (Decidable (¬(a = '\x7d' ∧ (pySpace b = true ∨ b = '\x7b'))))

instance (a b : Char) : Decidable (okPairTC a b) :=
  inferInstanceAs (Decidable (¬(a = ',' ∧ (pySpace b = true ∨ b = '\x7d' ∨ b = ']'))))

instance (a b : Char) : Decidable (okPairJ a b) :=
  inferInstanceAs (Decidable (okPairMC a b ∧ okPairTC a b))

theorem fixMCGo_none_cons (c : Char) (r : Str) (hc : ¬ c = '\x7d') :
    fixMCGo Option.none (c :: r) = c :: fixMCGo Option.none r := by
  rw [fixMCGo.eq_def]
  split <;> simp_all

theorem remTCGo_none_cons (c : Char) (r : Str) (hc : ¬ c = ',') :
    remTCGo Option.none (c :: r) = c :: remTCGo Option.none r := by
  rw [remTCGo.eq_def]
  split <;> simp_all

mutual

theorem fixMC_id_go (s : Str) (h : List.Chain' okPairMC s) :
    fixMCGo Option.none s = s := by
  match s with
  | [] => rfl
  | c :: r =>
    by_cases hc : c = '\x7d'
    · subst hc
      show fixMCGo (some []) r = '\x7d' :: r
      exact fixMC_id_after r h
    · rw [fixMCGo_none_cons c r hc]
      rw [fixMC_id_go r (List.Chain'.tail h)]

theorem fixMC_id_after (s : Str) (h : List.Chain' okPairMC ('\x7d' :: s)) :
    fixMCGo (some []) s = '\x7d' :: s := by
  match s with
  | [] => rfl
  | c :: r =>
    have hp : okPairMC '\x7d' c := (List.chain'_cons.mp h).1
    have hr : List.Chain' okPairMC (c :: r) := (List.chain'_cons.mp h).2
    have hws : pySpace c = false := by
      by_contra hx
      exact hp ⟨rfl, Or.inl (by revert hx; cases pySpace c <;> simp)⟩
    have hob : ¬ c = '\x7b' := fun hx => hp ⟨rfl, Or.inr hx⟩
    show (if pySpace c = true then fixMCGo (some [c]) r
      else if c = '\x7b' then '\x7d' :: ',' :: '\x7b' :: fixMCGo Option.none r
      else if c = '\x7d' then '\x7d' :: ([] : Str).reverse ++ fixMCGo (some []) r
      else '\x7d' :: ([] : Str).reverse ++ c :: fixMCGo Option.none r) = '\x7d' :: c :: r
    rw [if_neg (by rw [hws]; exact Bool.false_ne_true), if_neg hob]
    by_cases hc : c = '\x7d'
    · subst hc
      rw [if_pos rfl]
      have := fixMC_id_after r hr
      rw [this]
      rfl
    · rw [if_neg hc]
      rw [fixMC_id_go r (List.Chain'.tail hr)]
      rfl

end

mutual

theorem remTC_app_go (s t : Str) (h : List.Chain' okPairTC s)
    (hlast : s.getLast? ≠ some ',') :
    remTCGo Option.none (s ++ t) = s ++ remTCGo Option.none t := by
  match s with
  | [] => rfl
  | c :: r =>
    by_cases hc : c = ','
    · subst hc
      show remTCGo (some []) (r ++ t) = ',' :: r ++ remTCGo Option.none t
      exact remTC_app_after r t h hlast
    · rw [List.cons_append, remTCGo_none_cons c (r ++ t) hc]
      have hlast' : r.getLast? ≠ some ',' := by
        match r with
        | [] => simp
        | d :: r' =>
          rw [List.getLast?_cons_cons] at hlast
          exact hlast
      rw [remTC_app_go r t (List.Chain'.tail h) hlast']
      simp

theorem remTC_app_after (s t : Str) (h : List.Chain' okPairTC (',' :: s))
    (hlast : (',' :: s).getLast? ≠ some ',') :
    remTCGo (some []) (s ++ t) = ',' :: s ++ remTCGo Option.none t := by
  match s with
  | [] => exact absurd rfl hlast
  | c :: r =>
    have hp : okPairTC ',' c := (List.chain'_cons.mp h).1
    have hr : List.Chain' okPairTC (c :: r) := (List.chain'_cons.mp h).2
    have hws : pySpace c = false := by
      by_contra hx
      exact hp ⟨rfl, Or.inl (by revert hx; cases pySpace c <;> simp)⟩
    have hcb : ¬ c = '\x7d' := fun hx => hp ⟨rfl, Or.inr (Or.inl hx)⟩
    have hsb : ¬ c = ']' := fun hx => hp ⟨rfl, Or.inr (Or.inr hx)⟩
    have hlast' : (c :: r).getLast? ≠ some ',' := by
      rw [List.getLast?_cons_cons] at hlast
      exact hlast
    show (if pySpace c = true then remTCGo (some [c]) (r ++ t)
      else if c = '\x7d' || c = ']' then
        ([] : Str).reverse ++ c :: remTCGo Option.none (r ++ t)
      else if c = ',' then ',' :: ([] : Str).reverse ++ remTCGo (some []) (r ++ t)
      else ',' :: ([] : Str).reverse ++ c :: remTCGo Option.none (r ++ t))
      = ',' :: (c :: r) ++ remTCGo Option.none t
    rw [if_neg (by rw [hws]; exact Bool.false_ne_true)]
    rw [if_neg (by simp [hcb, hsb])]
    by_cases hc : c = ','
    · subst hc
      rw [if_pos rfl]
      rw [remTC_app_after r t hr hlast']
      rfl
    · rw [if_neg hc]
      have hlr : r.getLast? ≠ some ',' := by
        match r with
        | [] => simp
        | d :: r' =>
          rw [List.getLast?_cons_cons] at hlast'
          exact hlast'
      rw [remTC_app_go r t (List.Chain'.tail hr) hlr]
      rfl

end

/-- Characters allowed to start a rendered JSON value. -/
def headCl (c : Char) : Prop :=
  pySpace c = false ∧ c ≠ '\x7d' ∧ c ≠ ']' ∧ c ≠ ','

/-- Characters allowed to end a rendered JSON value. -/
def lastCl (c : Char) : Prop := pySpace c = false ∧ c ≠ ','

instance (c : Char) : Decidable (headCl c) :=
  inferInstanceAs (Decidable (pySpace c = false ∧ c ≠ '\x7d' ∧ c ≠ ']' ∧ c ≠ ','))

instance (c : Char) : Decidable (lastCl c) :=
  inferInstanceAs (Decidable (pySpace c = false ∧ c ≠ ','))

theorem okPairJ_left (a b : Char) (h1 : a ≠ '\x7d') (h2 : a ≠ ',') :
    okPairJ a b :=
  ⟨fun hx => h1 hx.1, fun hx => h2 hx.1⟩

theorem okPairJ_comma (b : Char) (hb : headCl b) : okPairJ ',' b := by
  refine ⟨fun hx => ?_, fun hx => ?_⟩
  · exact absurd hx.1 (by decide)
  · rcases hx.2 with hw | hw | hw
    · rw [hb.1] at hw
      exact Bool.false_ne_true hw
    · exact hb.2.1 hw
    · exact hb.2.2.1 hw

theorem okPairJ_lastb (x y : Char) (hx : x ≠ ',') (hy : pySpace y = false)
    (h2 : y ≠ '\x7b') : okPairJ x y := by
  refine ⟨fun hp => ?_, fun hp => hx hp.1⟩
  rcases hp.2 with hw | hw
  · rw [hy] at hw
    exact Bool.false_ne_true hw
  · exact h2 hw

theorem chainJ_of_safe (l : Str)
    (hl : ∀ a ∈ l, a ≠ '\x7d' ∧ a ≠ ',') : List.Chain' okPairJ l := by
  induction l with
  | nil => exact List.chain'_nil
  | cons a r ih =>
    rw [List.chain'_cons']
    refine ⟨fun b hb => ?_, ih (fun x hx => hl x (List.mem_cons_of_mem a hx))⟩
    have := hl a (List.mem_cons_self a r)
    exact okPairJ_left a b this.1 this.2

theorem digit_facts (c : Char) (h : isDigitC c = true) :
    pySpace c = false ∧ headCl c ∧ lastCl c := by
  simp only [isDigitC, Bool.and_eq_true, decide_eq_true_eq] at h
  have h125 : c ≠ '\x7d' := by
    intro he
    subst he
    revert h
    decide
  have h93 : c ≠ ']' := by
    intro he
    subst he
    revert h
    decide
  have h44 : c ≠ ',' := by
    intro he
    subst he
    revert h
    decide
  have hws : pySpace c = false := by
    simp only [pySpace, Bool.or_eq_false_iff, decide_eq_false_iff_not,
      Bool.and_eq_false_iff, Bool.not_eq_true]
    omega
  exact ⟨hws, ⟨hws, h125, h93, h44⟩, ⟨hws, h44⟩⟩

theorem safe_facts (c : Char) (h : safeChar c = true) :
    c ≠ '\x7d' ∧ c ≠ ',' := by
  unfold safeChar at h
  constructor
  · intro he
    subst he
    revert h
    decide
  · intro he
    subst he
    revert h
    decide

theorem getLast_ne_comma_of_lastCl {l : Str}
    (h : ∀ c, l.getLast? = some c → lastCl c) : l.getLast? ≠ some ',' := by
  intro hx
  exact (h ',' hx).2 rfl

theorem chain_comma_cons {l : Str} (hl : List.Chain' okPairJ l)
    (hh : ∀ c, l.head? = some c → headCl c) :
    List.Chain' okPairJ (',' :: l) := by
  rw [List.chain'_cons']
  exact ⟨fun b hb => okPairJ_comma b (hh b (Option.mem_def.mp hb)), hl⟩

theorem head?_append_left {α : Type} (a : α) (l m : List α) :
    ((a :: l) ++ m).head? = some a := by
  simp

mutual

theorem renderJ_facts (v : JVal) (h : jwf v = true) :
    List.Chain' okPairJ (renderJ v) ∧ renderJ v ≠ [] ∧
    (∀ c, (renderJ v).head? = some c → headCl c) ∧
    (∀ c, (renderJ v).getLast? = some c → lastCl c) := by
  match v with
  | .jstr s =>
    rw [jwf] at h
    refine ⟨chainJ_of_safe _ ?_, by simp [renderJ], ?_, ?_⟩
    · intro a ha
      rw [renderJ] at ha
      rcases List.mem_append.mp ha with ha | ha
      · rcases List.mem_cons.mp ha with ha | ha
        · subst ha
          exact ⟨by decide, by decide⟩
        · exact safe_facts a (List.all_eq_true.mp h a ha)
      · rw [List.mem_singleton] at ha
        subst ha
        exact ⟨by decide, by decide⟩
    · intro c hc
      rw [renderJ, head?_append_left, Option.some_inj] at hc
      subst hc
      decide
    · intro c hc
      rw [renderJ, List.getLast?_concat, Option.some_inj] at hc
      subst hc
      decide
  | .jnum s =>
    rw [jwf, Bool.and_eq_true, Bool.not_eq_true', List.isEmpty_eq_false] at h
    rw [renderJ]
    refine ⟨chainJ_of_safe _ ?_, h.1, ?_, ?_⟩
    · intro a ha
      have hd := digit_facts a (List.all_eq_true.mp h.2 a ha)
      exact ⟨hd.2.1.2.1, hd.2.2.2⟩
    · intro c hc
      have hm : c ∈ s := List.mem_of_mem_head? hc
      exact (digit_facts c (List.all_eq_true.mp h.2 c hm)).2.1
    · intro c hc
      have hm : c ∈ s := List.mem_of_getLast?_eq_some hc
      exact (digit_facts c (List.all_eq_true.mp h.2 c hm)).2.2
  | .jbool true =>
    have he : renderJ (.jbool true) = ['t', 'r', 'u', 'e'] := rfl
    rw [he]
    exact ⟨chainJ_of_safe _ (by decide), by decide, by decide, by decide⟩
  | .jbool false =>
    have he : renderJ (.jbool false) = ['f', 'a', 'l', 's', 'e'] := rfl
    rw [he]
    exact ⟨chainJ_of_safe _ (by decide), by decide, by decide, by decide⟩
  | .jnull =>
    have he : renderJ .jnull = ['n', 'u', 'l', 'l'] := rfl
    rw [he]
    exact ⟨chainJ_of_safe _ (by decide), by decide, by decide, by decide⟩
  | .jarr l =>
    rw [jwf] at h
    have ihl := renderL_facts l h
    rw [renderJ]
    have hsplit : '[' :: renderL l ++ [']'] = ('[' :: renderL l) ++ [']'] := by
      simp
    refine ⟨?_, by simp, ?_, ?_⟩
    · rw [hsplit, List.chain'_append]
      refine ⟨?_, List.chain'_singleton _, ?_⟩
      · rw [List.chain'_cons']
        exact ⟨fun b hb => okPairJ_left '[' b (by decide) (by decide), ihl.1⟩
      · intro x hx y hy
        simp only [Option.mem_def, List.head?_cons, Option.some_inj] at hy
        subst hy
        rw [Option.mem_def] at hx
        refine okPairJ_lastb x ']' ?_ (by decide) (by decide)
        match hr : renderL l with
        | [] =>
          rw [hr] at hx
          simp only [List.getLast?_singleton, Option.some_inj] at hx
          subst hx
          decide
        | d :: r' =>
          rw [hr, List.getLast?_cons_cons] at hx
          exact ((ihl.2.2 x (by rw [hr]; exact hx))).2
    · intro c hc
      rw [List.cons_append, List.head?_cons, Option.some_inj] at hc
      subst hc
      decide
    · intro c hc
      rw [← hsplit] at hc
      rw [show '[' :: renderL l ++ [']'] = ('[' :: renderL l) ++ [']'] from by simp,
        List.getLast?_concat, Option.some_inj] at hc
      subst hc
      decide
  | .jobj m =>
    rw [jwf] at h
    have ihm := renderM_facts m h
    rw [renderJ]
    refine ⟨?_, by simp, ?_, ?_⟩
    · rw [show '\x7b' :: renderM m ++ ['\x7d'] = ('\x7b' :: renderM m) ++ ['\x7d'] from by simp,
        List.chain'_append]
      refine ⟨?_, List.chain'_singleton _, ?_⟩
      · rw [List.chain'_cons']
        exact ⟨fun b hb => okPairJ_left '\x7b' b (by decide) (by decide), ihm.1⟩
      · intro x hx y hy
        simp only [Option.mem_def, List.head?_cons, Option.some_inj] at hy
        subst hy
        rw [Option.mem_def] at hx
        refine okPairJ_lastb x '\x7d' ?_ (by decide) (by decide)
        match hr : renderM m with
        | [] =>
          rw [hr] at hx
          simp only [List.getLast?_singleton, Option.some_inj] at hx
          subst hx
          decide
        | d :: r' =>
          rw [hr, List.getLast?_cons_cons] at hx
          exact ((ihm.2.2 x (by rw [hr]; exact hx))).2
    · intro c hc
      rw [List.cons_append, List.head?_cons, Option.some_inj] at hc
      subst hc
      decide
    · intro c hc
      rw [show '\x7b' :: renderM m ++ ['\x7d'] = ('\x7b' :: renderM m) ++ ['\x7d'] from by simp,
        List.getLast?_concat, Option.some_inj] at hc
      subst hc
      decide

theorem renderMem_facts (k : Str) (v : JVal) (hk : k.all safeChar = true)
    (hv : jwf v = true) :
    List.Chain' okPairJ (('"' :: k) ++ ('"' :: ':' :: renderJ v)) ∧
    (∀ c, (('"' :: k) ++ ('"' :: ':' :: renderJ v)).getLast? = some c → lastCl c) := by
  have ihv := renderJ_facts v hv
  constructor
  · rw [List.chain'_append]
    refine ⟨?_, ?_, ?_⟩
    · apply chainJ_of_safe
      intro a ha
      rcases List.mem_cons.mp ha with ha | ha
      · subst ha
        exact ⟨by decide, by decide⟩
      · exact safe_facts a (List.all_eq_true.mp hk a ha)
    · rw [List.chain'_cons]
      refine ⟨okPairJ_left '"' ':' (by decide) (by decide), ?_⟩
      rw [List.chain'_cons']
      exact ⟨fun b hb => okPairJ_left ':' b (by decide) (by decide), ihv.1⟩
    · intro x hx y hy
      simp only [Option.mem_def, List.head?_cons, Option.some_inj] at hy
      subst hy
      rw [Option.mem_def] at hx
      have hmem : x ∈ '"' :: k := List.mem_of_getLast?_eq_some hx
      rcases List.mem_cons.mp hmem with hm | hm
      · subst hm
        exact okPairJ_left '"' '"' (by decide) (by decide)
      · have := safe_facts x (List.all_eq_true.mp hk x hm)
        exact okPairJ_left x '"' this.1 this.2
  · intro c hc
    rw [List.getLast?_append_of_ne_nil _ (by simp), List.getLast?_cons_cons] at hc
    obtain ⟨d, r', hdr⟩ := List.exists_cons_of_ne_nil ihv.2.1
    rw [hdr, List.getLast?_cons_cons] at hc
    exact ihv.2.2.2 c (by rw [hdr]; exact hc)

theorem renderL_facts (l : List JVal) (h : jwfL l = true) :
    List.Chain' okPairJ (renderL l) ∧
    (∀ c, (renderL l).head? = some c → headCl c) ∧
    (∀ c, (renderL l).getLast? = some c → lastCl c) := by
  match l with
  | [] =>
    refine ⟨?_, ?_, ?_⟩
    · rw [renderL]
      exact List.chain'_nil
    · intro c hc
      rw [renderL] at hc
      exact absurd hc (by simp)
    · intro c hc
      rw [renderL] at hc
      exact absurd hc (by simp)
  | [v] =>
    rw [jwfL, Bool.and_eq_true] at h
    have ihv := renderJ_facts v h.1
    rw [renderL]
    exact ⟨ihv.1, ihv.2.2.1, ihv.2.2.2⟩
  | v :: v' :: t =>
    rw [jwfL, Bool.and_eq_true] at h
    have ihv := renderJ_facts v h.1
    have iht := renderL_facts (v' :: t) h.2
    have hwv' : jwf v' = true := by
      have h2 := h.2
      rw [jwfL.eq_def] at h2
      match t with
      | [] =>
        rw [Bool.and_eq_true] at h2
        exact h2.1
      | x :: t' =>
        rw [Bool.and_eq_true] at h2
        exact h2.1
    have hne : renderL (v' :: t) ≠ [] := by
      match t with
      | [] =>
        rw [renderL]
        exact (renderJ_facts v' hwv').2.1
      | x :: t' =>
        have he : renderL (v' :: x :: t') = renderJ v' ++ ',' :: renderL (x :: t') := rfl
        rw [he]
        simp [(renderJ_facts v' hwv').2.1]
    have hEq : renderL (v :: v' :: t) = renderJ v ++ ',' :: renderL (v' :: t) := rfl
    obtain ⟨a, ra, hra⟩ := List.exists_cons_of_ne_nil ihv.2.1
    refine ⟨?_, ?_, ?_⟩
    · rw [hEq, List.chain'_append]
      refine ⟨ihv.1, chain_comma_cons iht.1 iht.2.1, ?_⟩
      intro x hx y hy
      simp only [Option.mem_def, List.head?_cons, Option.some_inj] at hy
      subst hy
      rw [Option.mem_def] at hx
      exact okPairJ_lastb x ',' ((ihv.2.2.2 x hx)).2 (by decide) (by decide)
    · intro c hc
      rw [hEq, hra, head?_append_left, Option.some_inj] at hc
      subst hc
      exact ihv.2.2.1 a (by rw [hra]; rfl)
    · intro c hc
      rw [hEq, List.getLast?_append_of_ne_nil _ (by simp)] at hc
      obtain ⟨d, r', hdr⟩ := List.exists_cons_of_ne_nil hne
      rw [hdr, List.getLast?_cons_cons] at hc
      exact iht.2.2 c (by rw [hdr]; exact hc)

theorem renderM_facts (m : List (Str × JVal)) (h : jwfM m = true) :
    List.Chain' okPairJ (renderM m) ∧
    (∀ c, (renderM m).head? = some c → headCl c) ∧
    (∀ c, (renderM m).getLast? = some c → lastCl c) := by
  match m with
  | [] =>
    refine ⟨?_, ?_, ?_⟩
    · rw [renderM]
      exact List.chain'_nil
    · intro c hc
      rw [renderM] at hc
      exact absurd hc (by simp)
    · intro c hc
      rw [renderM] at hc
      exact absurd hc (by simp)
  | [(k, v)] =>
    rw [jwfM, Bool.and_eq_true, Bool.and_eq_true] at h
    have hm := renderMem_facts k v h.1.1 h.1.2
    have hEq : renderM [(k, v)] = ('"' :: k) ++ ('"' :: ':' :: renderJ v) := by
      rw [renderM]
    refine ⟨by rw [hEq]; exact hm.1, ?_, ?_⟩
    · intro c hc
      rw [hEq, head?_append_left, Option.some_inj] at hc
      subst hc
      decide
    · intro c hc
      rw [hEq] at hc
      exact hm.2 c hc
  | (k, v) :: m2 :: t =>
    rw [jwfM, Bool.and_eq_true, Bool.and_eq_true] at h
    have hm := renderMem_facts k v h.1.1 h.1.2
    have iht := renderM_facts (m2 :: t) h.2
    have hne : renderM (m2 :: t) ≠ [] := by
      match m2, t with
      | (k2, v2), [] =>
        rw [renderM]
        simp
      | (k2, v2), x :: t' =>
        have he : renderM ((k2, v2) :: x :: t') =
            '"' :: k2 ++ '"' :: ':' :: renderJ v2 ++ ',' :: renderM (x :: t') := rfl
        rw [he]
        simp
    have hEq : renderM ((k, v) :: m2 :: t) =
        (('"' :: k) ++ ('"' :: ':' :: renderJ v)) ++ ',' :: renderM (m2 :: t) := by
      have : renderM ((k, v) :: m2 :: t) =
          '"' :: k ++ '"' :: ':' :: renderJ v ++ ',' :: renderM (m2 :: t) := rfl
      rw [this]
    refine ⟨?_, ?_, ?_⟩
    · rw [hEq, List.chain'_append]
      refine ⟨hm.1, chain_comma_cons iht.1 iht.2.1, ?_⟩
      intro x hx y hy
      simp only [Option.mem_def, List.head?_cons, Option.some_inj] at hy
      subst hy
      rw [Option.mem_def] at hx
      exact okPairJ_lastb x ',' ((hm.2 x hx)).2 (by decide) (by decide)
    · intro c hc
      rw [hEq, List.cons_append, List.cons_append, List.head?_cons,
        Option.some_inj] at hc
      subst hc
      decide
    · intro c hc
      rw [hEq, List.getLast?_append_of_ne_nil _ (by simp)] at hc
      obtain ⟨d, r', hdr⟩ := List.exists_cons_of_ne_nil hne
      rw [hdr, List.getLast?_cons_cons] at hc
      exact iht.2.2 c (by rw [hdr]; exact hc)

end

mutual

theorem jfuel_le (v : JVal) (h : jwf v = true) : jfuel v ≤ (renderJ v).length := by
  match v with
  | .jstr s =>
    rw [jfuel, renderJ]
    simp
  | .jnum s =>
    rw [jwf, Bool.and_eq_true, Bool.not_eq_true', List.isEmpty_eq_false] at h
    rw [jfuel, renderJ]
    obtain ⟨a, t, ha⟩ := List.exists_cons_of_ne_nil h.1
    subst ha
    simp
  | .jbool true => exact Nat.le_of_eq rfl |>.trans (by rw [jfuel]; decide)
  | .jbool false => exact Nat.le_of_eq rfl |>.trans (by rw [jfuel]; decide)
  | .jnull => exact Nat.le_of_eq rfl |>.trans (by rw [jfuel]; decide)
  | .jarr l =>
    rw [jwf] at h
    have ih := jfuelL_le l h
    rw [jfuel, renderJ]
    simp only [List.cons_append, List.length_cons, List.length_append,
      List.length_singleton]
    omega
  | .jobj m =>
    rw [jwf] at h
    have ih := jfuelM_le m h
    rw [jfuel, renderJ]
    simp only [List.cons_append, List.length_cons, List.length_append,
      List.length_singleton]
    omega

theorem jfuelL_le (l : List JVal) (h : jwfL l = true) :
    jfuelL l ≤ (renderL l).length + 1 := by
  match l with
  | [] =>
    rw [jfuelL, renderL]
    simp
  | [v] =>
    rw [jwfL, Bool.and_eq_true] at h
    have ih := jfuel_le v h.1
    rw [jfuelL, renderL]
    omega
  | v :: v' :: t =>
    rw [jwfL, Bool.and_eq_true] at h
    have ih1 := jfuel_le v h.1
    have ih2 := jfuelL_le (v' :: t) h.2
    have hEq : renderL (v :: v' :: t) = renderJ v ++ ',' :: renderL (v' :: t) := rfl
    have hEq2 : jfuelL (v :: v' :: t) = 1 + jfuel v + jfuelL (v' :: t) := rfl
    rw [hEq, hEq2]
    simp only [List.length_append, List.length_cons]
    omega

theorem jfuelM_le (m : List (Str × JVal)) (h : jwfM m = true) :
    jfuelM m ≤ (renderM m).length + 1 := by
  match m with
  | [] =>
    rw [jfuelM, renderM]
    simp
  | [(k, v)] =>
    rw [jwfM, Bool.and_eq_true, Bool.and_eq_true] at h
    have ih := jfuel_le v h.1.2
    rw [jfuelM, renderM]
    simp only [List.cons_append, List.length_cons, List.length_append]
    omega
  | (k, v) :: m2 :: t =>
    rw [jwfM, Bool.and_eq_true, Bool.and_eq_true] at h
    have ih1 := jfuel_le v h.1.2
    have ih2 := jfuelM_le (m2 :: t) h.2
    have hEq : renderM ((k, v) :: m2 :: t) =
        '"' :: k ++ '"' :: ':' :: renderJ v ++ ',' :: renderM (m2 :: t) := rfl
    have hEq2 : jfuelM ((k, v) :: m2 :: t) = 1 + jfuel v + jfuelM (m2 :: t) := rfl
    rw [hEq, hEq2]
    simp only [List.cons_append, List.length_cons, List.length_append]
    omega

end

theorem safe_ge32 (c : Char) (h : safeChar c = true) : ¬ c.toNat < 32 := by
  unfold safeChar at h
  rw [Bool.and_eq_true, decide_eq_true_eq] at h
  omega

theorem safe_ne_quote (c : Char) (h : safeChar c = true) :
    c ≠ '"' ∧ c ≠ '\\' := by
  unfold safeChar at h
  constructor
  · intro he
    subst he
    revert h
    decide
  · intro he
    subst he
    revert h
    decide

theorem parseJStr_safe (k : Str) (rest : Str) (hk : k.all safeChar = true) :
    parseJStr (k ++ '"' :: rest) = some (k, rest) := by
  induction k with
  | nil =>
    rw [List.nil_append, parseJStr.eq_def]
    split
    · rename_i heq
      exact absurd heq (by simp)
    · rename_i c2 r2 heq
      rw [List.cons_eq_cons] at heq
      obtain ⟨h1, h2⟩ := heq
      subst h1
      subst h2
      rw [if_pos rfl]
  | cons c k' ih =>
    have hc := List.all_eq_true.mp hk c (List.mem_cons_self c k')
    have hk' : k'.all safeChar = true := by
      rw [List.all_eq_true] at hk ⊢
      intro a ha
      exact hk a (List.mem_cons_of_mem c ha)
    have hq := safe_ne_quote c hc
    have h32 := safe_ge32 c hc
    rw [List.cons_append, parseJStr.eq_def]
    split
    · rename_i heq
      exact absurd heq (by simp)
    · rename_i c2 r2 heq
      rw [List.cons_eq_cons] at heq
      obtain ⟨h1, h2⟩ := heq
      subst h1
      subst h2
      rw [if_neg hq.1, if_neg hq.2, if_neg h32, ih hk']

theorem jsonWsC_false (c : Char) (h : pySpace c = false) : jsonWsC c = false := by
  cases hx : jsonWsC c
  · rfl
  · exfalso
    simp only [jsonWsC, Bool.or_eq_true, decide_eq_true_eq] at hx
    have hp : pySpace c = true := by
      rcases hx with ((hx | hx) | hx) | hx <;> (subst hx; decide)
    rw [hp] at h
    exact Bool.noConfusion h

theorem skipJWs_cons_of (c : Char) (r : Str) (h : pySpace c = false) :
    skipJWs (c :: r) = c :: r := by
  unfold skipJWs
  rw [List.dropWhile_cons, if_neg]
  rw [jsonWsC_false c h]
  exact Bool.false_ne_true

theorem takeWhile_append_all (p : Char → Bool) (s rest : Str)
    (hs : s.all p = true) (hr : ∀ c, rest.head? = some c → p c = false) :
    (s ++ rest).takeWhile p = s := by
  induction s with
  | nil =>
    match rest with
    | [] => rfl
    | c :: r =>
      have := hr c rfl
      simp [List.takeWhile_cons, this]
  | cons a s' ih =>
    have ha := List.all_eq_true.mp hs a (List.mem_cons_self a s')
    have hs' : s'.all p = true := by
      rw [List.all_eq_true] at hs ⊢
      intro x hx
      exact hs x (List.mem_cons_of_mem a hx)
    simp [List.takeWhile_cons, ha, ih hs']

theorem digit_ne_heads (c : Char) (h : isDigitC c = true) :
    c ≠ '"' ∧ c ≠ '\x7b' ∧ c ≠ '[' ∧ c ≠ 't' ∧ c ≠ 'f' ∧ c ≠ 'n' := by
  refine ⟨?_, ?_, ?_, ?_, ?_, ?_⟩ <;> (intro he; subst he; revert h; decide)

theorem parseJV_succ_eq (f : Nat) (s : Str) (c : Char) (r : Str)
    (h : skipJWs s = c :: r) :
    parseJV (f + 1) s =
      (if c = '"' then
        match parseJStr r with
        | some p => some (.jstr p.1, p.2)
        | Option.none => Option.none
      else if c = '\x7b' then
        match parseJMems f (skipJWs r) true with
        | some p => some (.jobj p.1, p.2)
        | Option.none => Option.none
      else if c = '[' then
        match parseJElems f (skipJWs r) true with
        | some p => some (.jarr p.1, p.2)
        | Option.none => Option.none
      else if c = 't' then
        if r.take 3 = "rue".data then some (.jbool true, r.drop 3)
        else Option.none
      else if c = 'f' then
        if r.take 4 = "alse".data then some (.jbool false, r.drop 4)
        else Option.none
      else if c = 'n' then
        if r.take 3 = "ull".data then some (.jnull, r.drop 3) else Option.none
      else if isDigitC c || c = '-' then
        let t := (c :: r).takeWhile numChar
        some (.jnum t, (c :: r).drop t.length)
      else Option.none) := by
  show (match skipJWs s with
    | [] => Option.none
    | c :: r =>
      if c = '"' then
        match parseJStr r with
        | some p => some (JVal.jstr p.1, p.2)
        | Option.none => Option.none
      else if c = '\x7b' then
        match parseJMems f (skipJWs r) true with
        | some p => some (JVal.jobj p.1, p.2)
        | Option.none => Option.none
      else if c = '[' then
        match parseJElems f (skipJWs r) true with
        | some p => some (JVal.jarr p.1, p.2)
        | Option.none => Option.none
      else if c = 't' then
        if r.take 3 = "rue".data then some (JVal.jbool true, r.drop 3)
        else Option.none
      else if c = 'f' then
        if r.take 4 = "alse".data then some (JVal.jbool false, r.drop 4)
        else Option.none
      else if c = 'n' then
        if r.take 3 = "ull".data then some (JVal.jnull, r.drop 3) else Option.none
      else if isDigitC c || c = '-' then
        let t := (c :: r).takeWhile numChar
        some (JVal.jnum t, (c :: r).drop t.length)
      else Option.none) = _
  rw [h]

theorem parseJElems_bracket (f : Nat) (r : Str) (first : Bool) :
    parseJElems (f + 1) (']' :: r) first =
      if first then some ([], r) else Option.none := rfl

theorem parseJMems_brace (f : Nat) (r : Str) (first : Bool) :
    parseJMems (f + 1) ('\x7d' :: r) first =
      if first then some ([], r) else Option.none := rfl

theorem parseJMems_quote (f : Nat) (r : Str) (first : Bool) :
    parseJMems (f + 1) ('"' :: r) first =
      (match parseJStr r with
      | some kp =>
        match skipJWs kp.2 with
        | ':' :: r2 =>
          match parseJV f r2 with
          | some vp =>
            match skipJWs vp.2 with
            | ',' :: r3 =>
              match parseJMems f (skipJWs r3) false with
              | some mp => some ((kp.1, vp.1) :: mp.1, mp.2)
              | Option.none => Option.none
            | '\x7d' :: r3 => some ([(kp.1, vp.1)], r3)
            | _ => Option.none
          | Option.none => Option.none
        | _ => Option.none
      | Option.none => Option.none) := rfl

theorem parseJElems_cons_ne (f : Nat) (c : Char) (r : Str) (first : Bool)
    (hc : ¬ c = ']') :
    parseJElems (f + 1) (c :: r) first =
      (match parseJV f (c :: r) with
      | some vp =>
        match skipJWs vp.2 with
        | ',' :: r2 =>
          match parseJElems f (skipJWs r2) false with
          | some ep => some (vp.1 :: ep.1, ep.2)
          | Option.none => Option.none
        | ']' :: r2 => some ([vp.1], r2)
        | _ => Option.none
      | Option.none => Option.none) := by
  show (match (c :: r : Str) with
    | ']' :: r2 => if first then some (([] : List JVal), r2) else Option.none
    | _ =>
      match parseJV f (c :: r) with
      | some vp =>
        match skipJWs vp.2 with
        | ',' :: r2 =>
          match parseJElems f (skipJWs r2) false with
          | some ep => some (vp.1 :: ep.1, ep.2)
          | Option.none => Option.none
        | ']' :: r2 => some ([vp.1], r2)
        | _ => Option.none
      | Option.none => Option.none) = _
  split
  · rename_i heq
    rw [List.cons_eq_cons] at heq
    exact absurd heq.1 hc
  · rfl

theorem digits_all_numChar (s : Str) (h : s.all isDigitC = true) :
    s.all numChar = true := by
  rw [List.all_eq_true] at h ⊢
  intro a ha
  unfold numChar
  rw [h a ha]
  rfl

theorem renderM_cons_quote (m2 : Str × JVal) (t : List (Str × JVal)) :
    ∃ rr, renderM (m2 :: t) = '"' :: rr := by
  match m2, t with
  | (k, v), [] =>
    refine ⟨k ++ '"' :: ':' :: renderJ v, ?_⟩
    rw [renderM]
    rfl
  | (k, v), x :: t' =>
    refine ⟨k ++ '"' :: ':' :: renderJ v ++ ',' :: renderM (x :: t'), ?_⟩
    have he : renderM ((k, v) :: x :: t') =
        '"' :: k ++ '"' :: ':' :: renderJ v ++ ',' :: renderM (x :: t') := rfl
    rw [he]
    simp

mutual

theorem parseJV_render (v : JVal) (h : jwf v = true) :
    ∀ f rest, jfuel v ≤ f →
      (∀ c, rest.head? = some c → numChar c = false) →
      parseJV f (renderJ v ++ rest) = some (v, rest) := by
  match v with
  | .jstr s =>
    intro f rest hf hrest
    rw [jfuel] at hf
    obtain ⟨f', rfl⟩ : ∃ f', f = f' + 1 := ⟨f - 1, by omega⟩
    have hin : renderJ (.jstr s) ++ rest = '"' :: (s ++ '"' :: rest) := by
      rw [renderJ]
      simp
    rw [hin, parseJV_succ_eq f' _ '"' (s ++ '"' :: rest)
      (skipJWs_cons_of '"' _ (by decide)), if_pos rfl,
      parseJStr_safe s rest (by rw [jwf] at h; exact h)]
  | .jnum s =>
    intro f rest hf hrest
    rw [jwf, Bool.and_eq_true, Bool.not_eq_true', List.isEmpty_eq_false] at h
    rw [jfuel] at hf
    obtain ⟨f', rfl⟩ : ∃ f', f = f' + 1 := ⟨f - 1, by omega⟩
    obtain ⟨d, ds, rfl⟩ := List.exists_cons_of_ne_nil h.1
    have hd : isDigitC d = true :=
      List.all_eq_true.mp h.2 d (List.mem_cons_self d ds)
    have dn := digit_ne_heads d hd
    have hdws : pySpace d = false := (digit_facts d hd).1
    have hin : renderJ (.jnum (d :: ds)) ++ rest = d :: (ds ++ rest) := by
      rw [renderJ]
      rfl
    rw [hin, parseJV_succ_eq f' _ d (ds ++ rest) (skipJWs_cons_of d _ hdws),
      if_neg dn.1, if_neg dn.2.1, if_neg dn.2.2.1, if_neg dn.2.2.2.1,
      if_neg dn.2.2.2.2.1, if_neg dn.2.2.2.2.2,
      if_pos (by rw [hd]; rfl : (isDigitC d || d = '-') = true)]
    have htake : ((d :: ds) ++ rest).takeWhile numChar = d :: ds :=
      takeWhile_append_all numChar (d :: ds) rest (digits_all_numChar _ h.2) hrest
    have hdrop : ((d :: ds) ++ rest).drop (d :: ds).length = rest :=
      List.drop_left (d :: ds) rest
    show some (JVal.jnum (((d :: ds) ++ rest).takeWhile numChar),
      ((d :: ds) ++ rest).drop (((d :: ds) ++ rest).takeWhile numChar).length)
      = some (JVal.jnum (d :: ds), rest)
    rw [htake, hdrop]
  | .jbool true =>
    intro f rest hf hrest
    rw [jfuel] at hf
    obtain ⟨f', rfl⟩ : ∃ f', f = f' + 1 := ⟨f - 1, by omega⟩
    have hin : renderJ (.jbool true) ++ rest = 't' :: ('r' :: 'u' :: 'e' :: rest) := rfl
    rw [hin, parseJV_succ_eq f' _ 't' ('r' :: 'u' :: 'e' :: rest)
      (skipJWs_cons_of 't' _ (by decide)),
      if_neg (by decide), if_neg (by decide), if_neg (by decide), if_pos rfl,
      if_pos (by rfl)]
    rfl
  | .jbool false =>
    intro f rest hf hrest
    rw [jfuel] at hf
    obtain ⟨f', rfl⟩ : ∃ f', f = f' + 1 := ⟨f - 1, by omega⟩
    have hin : renderJ (.jbool false) ++ rest
      = 'f' :: ('a' :: 'l' :: 's' :: 'e' :: rest) := rfl
    rw [hin, parseJV_succ_eq f' _ 'f' ('a' :: 'l' :: 's' :: 'e' :: rest)
      (skipJWs_cons_of 'f' _ (by decide)),
      if_neg (by decide), if_neg (by decide), if_neg (by decide),
      if_neg (by decide), if_pos rfl, if_pos (by rfl)]
    rfl
  | .jnull =>
    intro f rest hf hrest
    rw [jfuel] at hf
    obtain ⟨f', rfl⟩ : ∃ f', f = f' + 1 := ⟨f - 1, by omega⟩
    have hin : renderJ .jnull ++ rest = 'n' :: ('u' :: 'l' :: 'l' :: rest) := rfl
    rw [hin, parseJV_succ_eq f' _ 'n' ('u' :: 'l' :: 'l' :: rest)
      (skipJWs_cons_of 'n' _ (by decide)),
      if_neg (by decide), if_neg (by decide), if_neg (by decide),
      if_neg (by decide), if_neg (by decide), if_pos rfl, if_pos (by rfl)]
    rfl
  | .jarr l =>
    intro f rest hf hrest
    rw [jwf] at h
    rw [jfuel] at hf
    obtain ⟨f', rfl⟩ : ∃ f', f = f' + 1 := ⟨f - 1, by omega⟩
    have hin : renderJ (.jarr l) ++ rest = '[' :: (renderL l ++ ']' :: rest) := by
      rw [renderJ]
      simp
    have hskip2 : skipJWs (renderL l ++ ']' :: rest) = renderL l ++ ']' :: rest := by
      match hr : renderL l with
      | [] => exact skipJWs_cons_of ']' rest (by decide)
      | d :: dr =>
        rw [List.cons_append]
        exact skipJWs_cons_of d _
          ((renderL_facts l h).2.1 d (by rw [hr]; rfl)).1
    rw [hin, parseJV_succ_eq f' _ '[' (renderL l ++ ']' :: rest)
      (skipJWs_cons_of '[' _ (by decide)),
      if_neg (by decide), if_neg (by decide), if_pos rfl, hskip2,
      parseJElems_render l h f' rest true (by omega) (Or.inl rfl)]
  | .jobj m =>
    intro f rest hf hrest
    rw [jwf] at h
    rw [jfuel] at hf
    obtain ⟨f', rfl⟩ : ∃ f', f = f' + 1 := ⟨f - 1, by omega⟩
    have hin : renderJ (.jobj m) ++ rest
      = '\x7b' :: (renderM m ++ '\x7d' :: rest) := by
      rw [renderJ]
      simp
    have hskip2 : skipJWs (renderM m ++ '\x7d' :: rest)
        = renderM m ++ '\x7d' :: rest := by
      match hr : renderM m with
      | [] => exact skipJWs_cons_of '\x7d' rest (by decide)
      | d :: dr =>
        rw [List.cons_append]
        exact skipJWs_cons_of d _
          ((renderM_facts m h).2.1 d (by rw [hr]; rfl)).1
    rw [hin, parseJV_succ_eq f' _ '\x7b' (renderM m ++ '\x7d' :: rest)
      (skipJWs_cons_of '\x7b' _ (by decide)),
      if_neg (by decide), if_pos rfl, hskip2,
      parseJMems_render m h f' rest true (by omega) (Or.inl rfl)]

theorem parseJElems_render (l : List JVal) (h : jwfL l = true) :
    ∀ f rest first, jfuelL l ≤ f → (first = true ∨ l ≠ []) →
      parseJElems f (renderL l ++ ']' :: rest) first = some (l, rest) := by
  match l with
  | [] =>
    intro f rest first hf hfirst
    have hft : first = true := by
      rcases hfirst with hx | hx
      · exact hx
      · exact absurd rfl hx
    subst hft
    rw [jfuelL] at hf
    obtain ⟨f', rfl⟩ : ∃ f', f = f' + 1 := ⟨f - 1, by omega⟩
    rw [renderL, List.nil_append, parseJElems_bracket, if_pos rfl]
  | v :: t =>
    intro f rest first hf hfirst
    have hsplit : jwf v = true ∧ jwfL t = true := by
      rw [jwfL, Bool.and_eq_true] at h
      exact h
    have hfge : 1 + jfuel v ≤ f ∧ (t ≠ [] → 1 + jfuel v + jfuelL t ≤ f) := by
      match t with
      | [] =>
        rw [jfuelL] at hf
        exact ⟨hf, fun hx => absurd rfl hx⟩
      | x :: t' =>
        have he : jfuelL (v :: x :: t') = 1 + jfuel v + jfuelL (x :: t') := rfl
        rw [he] at hf
        have : 1 ≤ jfuelL (x :: t') := by
          match t' with
          | [] => rw [jfuelL]; omega
          | y :: t2 =>
            have he2 : jfuelL (x :: y :: t2) = 1 + jfuel x + jfuelL (y :: t2) := rfl
            omega
        exact ⟨by omega, fun _ => hf⟩
    obtain ⟨f', rfl⟩ : ∃ f', f = f' + 1 := ⟨f - 1, by omega⟩
    have ihv := parseJV_render v hsplit.1
    obtain ⟨d, dr, hdr⟩ := List.exists_cons_of_ne_nil (renderJ_facts v hsplit.1).2.1
    have hdcl : headCl d := (renderJ_facts v hsplit.1).2.2.1 d (by rw [hdr]; rfl)
    match t with
    | [] =>
      have hin : renderL [v] ++ ']' :: rest = d :: (dr ++ ']' :: rest) := by
        rw [renderL, hdr]
        rfl
      rw [hin, parseJElems_cons_ne f' d (dr ++ ']' :: rest) first hdcl.2.2.1]
      have hv2 : parseJV f' (d :: (dr ++ ']' :: rest)) = some (v, ']' :: rest) := by
        have := ihv f' (']' :: rest) (by omega) (by intro c hc; simp only [List.head?_cons, Option.some_inj] at hc; subst hc; decide)
        rw [hdr] at this
        rw [← this]
        simp
      rw [hv2]
      rfl
    | v' :: t' =>
      have hin : renderL (v :: v' :: t') ++ ']' :: rest
          = d :: (dr ++ (',' :: (renderL (v' :: t') ++ ']' :: rest))) := by
        have he : renderL (v :: v' :: t') = renderJ v ++ ',' :: renderL (v' :: t') := rfl
        rw [he, hdr]
        simp
      rw [hin, parseJElems_cons_ne f' d _ first hdcl.2.2.1]
      have hv2 : parseJV f' (d :: (dr ++ (',' :: (renderL (v' :: t') ++ ']' :: rest))))
          = some (v, ',' :: (renderL (v' :: t') ++ ']' :: rest)) := by
        have := ihv f' (',' :: (renderL (v' :: t') ++ ']' :: rest)) (by have := hfge.2 (by simp); omega)
          (by intro c hc; simp only [List.head?_cons, Option.some_inj] at hc; subst hc; decide)
        rw [hdr] at this
        rw [← this]
        simp
      rw [hv2]
      have hskipY : skipJWs (renderL (v' :: t') ++ ']' :: rest)
          = renderL (v' :: t') ++ ']' :: rest := by
        match hr : renderL (v' :: t') with
        | [] => exact skipJWs_cons_of ']' rest (by decide)
        | e :: er =>
          rw [List.cons_append]
          exact skipJWs_cons_of e _
            ((renderL_facts (v' :: t') hsplit.2).2.1 e (by rw [hr]; rfl)).1
      show (match skipJWs (',' :: (renderL (v' :: t') ++ ']' :: rest)) with
        | ',' :: r2 =>
          match parseJElems f' (skipJWs r2) false with
          | some ep => some (v :: ep.1, ep.2)
          | Option.none => Option.none
        | ']' :: r2 => some ([v], r2)
        | _ => Option.none) = some (v :: v' :: t', rest)
    -- continue
      rw [show skipJWs (',' :: (renderL (v' :: t') ++ ']' :: rest))
          = ',' :: (renderL (v' :: t') ++ ']' :: rest) from
        skipJWs_cons_of ',' _ (by decide)]
      show (match parseJElems f' (skipJWs (renderL (v' :: t') ++ ']' :: rest)) false with
        | some ep => some (v :: ep.1, ep.2)
        | Option.none => Option.none) = some (v :: v' :: t', rest)
      rw [hskipY, parseJElems_render (v' :: t') hsplit.2 f' rest false
        (by have := hfge.2 (by simp); omega) (Or.inr (by simp))]

theorem parseJMems_render (m : List (Str × JVal)) (h : jwfM m = true) :
    ∀ f rest first, jfuelM m ≤ f → (first = true ∨ m ≠ []) →
      parseJMems f (renderM m ++ '\x7d' :: rest) first = some (m, rest) := by
  match m with
  | [] =>
    intro f rest first hf hfirst
    have hft : first = true := by
      rcases hfirst with hx | hx
      · exact hx
      · exact absurd rfl hx
    subst hft
    rw [jfuelM] at hf
    obtain ⟨f', rfl⟩ : ∃ f', f = f' + 1 := ⟨f - 1, by omega⟩
    rw [renderM, List.nil_append, parseJMems_brace, if_pos rfl]
  | (k, v) :: t =>
    intro f rest first hf hfirst
    have hsplit : k.all safeChar = true ∧ jwf v = true ∧ jwfM t = true := by
      rw [jwfM, Bool.and_eq_true, Bool.and_eq_true] at h
      exact ⟨h.1.1, h.1.2, h.2⟩
    have hfge : 1 + jfuel v ≤ f ∧ (t ≠ [] → 1 + jfuel v + jfuelM t ≤ f) := by
      match t with
      | [] =>
        rw [jfuelM] at hf
        exact ⟨hf, fun hx => absurd rfl hx⟩
      | x :: t' =>
        have he : jfuelM ((k, v) :: x :: t') = 1 + jfuel v + jfuelM (x :: t') := rfl
        rw [he] at hf
        have : 1 ≤ jfuelM (x :: t') := by
          match hx2 : x, t' with
          | (k2, v2), [] => rw [jfuelM]; omega
          | (k2, v2), y :: t2 =>
            have he2 : jfuelM ((k2, v2) :: y :: t2) = 1 + jfuel v2 + jfuelM (y :: t2) := rfl
            omega
        exact ⟨by omega, fun _ => hf⟩
    obtain ⟨f', rfl⟩ : ∃ f', f = f' + 1 := ⟨f - 1, by omega⟩
    have ihv := parseJV_render v hsplit.2.1
    match t with
    | [] =>
      have hin : renderM [(k, v)] ++ '\x7d' :: rest
          = '"' :: (k ++ '"' :: (':' :: (renderJ v ++ '\x7d' :: rest))) := by
        rw [renderM]
        simp
      rw [hin, parseJMems_quote,
        parseJStr_safe k (':' :: (renderJ v ++ '\x7d' :: rest)) hsplit.1]
      show (match skipJWs (':' :: (renderJ v ++ '\x7d' :: rest)) with
        | ':' :: r2 =>
          match parseJV f' r2 with
          | some vp =>
            match skipJWs vp.2 with
            | ',' :: r3 =>
              match parseJMems f' (skipJWs r3) false with
              | some mp => some ((k, vp.1) :: mp.1, mp.2)
              | Option.none => Option.none
            | '\x7d' :: r3 => some ([(k, vp.1)], r3)
            | _ => Option.none
          | Option.none => Option.none
        | _ => Option.none) = some ([(k, v)], rest)
      rw [show skipJWs (':' :: (renderJ v ++ '\x7d' :: rest))
          = ':' :: (renderJ v ++ '\x7d' :: rest) from
        skipJWs_cons_of ':' _ (by decide)]
      show (match parseJV f' (renderJ v ++ '\x7d' :: rest) with
        | some vp =>
          match skipJWs vp.2 with
          | ',' :: r3 =>
            match parseJMems f' (skipJWs r3) false with
            | some mp => some ((k, vp.1) :: mp.1, mp.2)
            | Option.none => Option.none
          | '\x7d' :: r3 => some ([(k, vp.1)], r3)
          | _ => Option.none
        | Option.none => Option.none) = some ([(k, v)], rest)
      rw [ihv f' ('\x7d' :: rest) (by omega)
        (by intro c hc; simp only [List.head?_cons, Option.some_inj] at hc; subst hc; decide)]
      rfl
    | m2 :: t' =>
      have hin : renderM ((k, v) :: m2 :: t') ++ '\x7d' :: rest
          = '"' :: (k ++ '"' :: (':' :: (renderJ v
              ++ ',' :: (renderM (m2 :: t') ++ '\x7d' :: rest)))) := by
        have he : renderM ((k, v) :: m2 :: t') =
            '"' :: k ++ '"' :: ':' :: renderJ v ++ ',' :: renderM (m2 :: t') := rfl
        rw [he]
        simp
      rw [hin, parseJMems_quote,
        parseJStr_safe k (':' :: (renderJ v ++ ',' :: (renderM (m2 :: t') ++ '\x7d' :: rest))) hsplit.1]
      show (match skipJWs (':' :: (renderJ v ++ ',' :: (renderM (m2 :: t') ++ '\x7d' :: rest))) with
        | ':' :: r2 =>
          match parseJV f' r2 with
          | some vp =>
            match skipJWs vp.2 with
            | ',' :: r3 =>
              match parseJMems f' (skipJWs r3) false with
              | some mp => some ((k, vp.1) :: mp.1, mp.2)
              | Option.none => Option.none
            | '\x7d' :: r3 => some ([(k, vp.1)], r3)
            | _ => Option.none
          | Option.none => Option.none
        | _ => Option.none) = some ((k, v) :: m2 :: t', rest)
      rw [show skipJWs (':' :: (renderJ v ++ ',' :: (renderM (m2 :: t') ++ '\x7d' :: rest)))
          = ':' :: (renderJ v ++ ',' :: (renderM (m2 :: t') ++ '\x7d' :: rest)) from
        skipJWs_cons_of ':' _ (by decide)]
      show (match parseJV f' (renderJ v ++ ',' :: (renderM (m2 :: t') ++ '\x7d' :: rest)) with
        | some vp =>
          match skipJWs vp.2 with
          | ',' :: r3 =>
            match parseJMems f' (skipJWs r3) false with
            | some mp => some ((k, vp.1) :: mp.1, mp.2)
            | Option.none => Option.none
          | '\x7d' :: r3 => some ([(k, vp.1)], r3)
          | _ => Option.none
        | Option.none => Option.none) = some ((k, v) :: m2 :: t', rest)
      rw [ihv f' (',' :: (renderM (m2 :: t') ++ '\x7d' :: rest))
        (by have := hfge.2 (by simp); omega)
        (by intro c hc; simp only [List.head?_cons, Option.some_inj] at hc; subst hc; decide)]
      show (match skipJWs (',' :: (renderM (m2 :: t') ++ '\x7d' :: rest)) with
        | ',' :: r3 =>
          match parseJMems f' (skipJWs r3) false with
          | some mp => some ((k, v) :: mp.1, mp.2)
          | Option.none => Option.none
        | '\x7d' :: r3 => some ([(k, v)], r3)
        | _ => Option.none) = some ((k, v) :: m2 :: t', rest)
      rw [show skipJWs (',' :: (renderM (m2 :: t') ++ '\x7d' :: rest))
          = ',' :: (renderM (m2 :: t') ++ '\x7d' :: rest) from
        skipJWs_cons_of ',' _ (by decide)]
      have hskipM : skipJWs (renderM (m2 :: t') ++ '\x7d' :: rest)
          = renderM (m2 :: t') ++ '\x7d' :: rest := by
        obtain ⟨rr, hrr⟩ := renderM_cons_quote m2 t'
        rw [hrr, List.cons_append]
        exact skipJWs_cons_of '"' _ (by decide)
      show (match parseJMems f' (skipJWs (renderM (m2 :: t') ++ '\x7d' :: rest)) false with
        | some mp => some ((k, v) :: mp.1, mp.2)
        | Option.none => Option.none) = some ((k, v) :: m2 :: t', rest)
      rw [hskipM, parseJMems_render (m2 :: t') hsplit.2.2 f' rest false
        (by have := hfge.2 (by simp); omega) (Or.inr (by simp))]

end

theorem json_loads_render (v : JVal) (h : jwf v = true) :
    json_loads (renderJ v) = some v := by
  unfold json_loads
  have hle : jfuel v ≤ (renderJ v).length + 1 := Nat.le_succ_of_le (jfuel_le v h)
  have hr := parseJV_render v h ((renderJ v).length + 1) [] hle
    (by intro c hc; simp at hc)
  rw [List.append_nil] at hr
  rw [hr]
  rfl

theorem dropWhile_id_of_head {p : Char → Bool} {l : Str}
    (h : ∀ c, l.head? = some c → p c = false) : l.dropWhile p = l := by
  match l with
  | [] => rfl
  | c :: r =>
    rw [List.dropWhile_cons, if_neg]
    intro hx
    rw [h c rfl] at hx
    exact Bool.noConfusion hx

theorem pyStrip_id (s : Str)
    (hh : ∀ c, s.head? = some c → pySpace c = false)
    (hl : ∀ c, s.getLast? = some c → pySpace c = false) : pyStrip s = s := by
  unfold pyStrip
  rw [dropWhile_id_of_head hh]
  rw [dropWhile_id_of_head (fun c hc => hl c (by rw [← List.head?_reverse]; exact hc))]
  exact List.reverse_reverse s

theorem renderL_jobj_head (o : List (Str × JVal)) (rest : List JVal) :
    (renderL (JVal.jobj o :: rest)).head? = some '\x7b' := by
  match rest with
  | [] => rfl
  | x :: r' => rfl

theorem renderL_jobj_ne (o : List (Str × JVal)) (rest : List JVal) :
    renderL (JVal.jobj o :: rest) ≠ [] := by
  match rest with
  | [] =>
    have he : renderL [JVal.jobj o] = '\x7b' :: (renderM o ++ ['\x7d']) := rfl
    rw [he]
    simp
  | x :: r' =>
    have he : renderL (JVal.jobj o :: x :: r')
        = '\x7b' :: ((renderM o ++ ['\x7d']) ++ ',' :: renderL (x :: r')) := rfl
    rw [he]
    simp

theorem renderL_jobj_last (objs : List (List (Str × JVal))) (hne : objs ≠ []) :
    (renderL (objs.map JVal.jobj)).getLast? = some '\x7d' := by
  match objs with
  | [o] =>
    have he : renderL (List.map JVal.jobj [o]) = ('\x7b' :: renderM o) ++ ['\x7d'] := rfl
    rw [he, List.getLast?_concat]
  | o :: o2 :: t =>
    have he : renderL (List.map JVal.jobj (o :: o2 :: t))
        = renderJ (JVal.jobj o) ++ ',' :: renderL (List.map JVal.jobj (o2 :: t)) := rfl
    rw [he, List.getLast?_append_of_ne_nil _ (by simp)]
    have hne2 := renderL_jobj_ne o2 (List.map JVal.jobj t)
    obtain ⟨e, er, her⟩ := List.exists_cons_of_ne_nil hne2
    rw [show (List.map JVal.jobj (o2 :: t)) = JVal.jobj o2 :: List.map JVal.jobj t from rfl] at *
    rw [her, List.getLast?_cons_cons, ← her]
    exact renderL_jobj_last (o2 :: t) (by simp)

theorem okPairMC_comma_right (x : Char) : okPairMC x ',' := by
  intro hp
  rcases hp.2 with h2 | h2
  · exact absurd h2 (by decide)
  · exact absurd h2 (by decide)

theorem okPairTC_bracket_left (b : Char) : okPairTC '[' b := by
  intro hp
  exact absurd hp.1 (by decide)

/-- Claim C5: the structural repair (`fix_json_structure`), applied to text
that is a comma-separated sequence of rendered JSON objects missing the
outer brackets, yields text that `json.loads` parses as a JSON array with
one element per object (here: exactly those objects, in order); applied to
an array with a trailing comma before the closing bracket, it yields text
parsing as the array with that comma removed. -/
theorem C5_structural_repair (objs : List (List (Str × JVal))) (vals : List JVal)
    (hobjs : objs ≠ []) (hwf : jwfL (objs.map JVal.jobj) = true)
    (hvals : jwfL vals = true) :
    json_loads (fix_json_structure (renderL (objs.map JVal.jobj)))
      = some (.jarr (objs.map JVal.jobj)) ∧
    json_loads (fix_json_structure ('[' :: renderL vals ++ [',', ']']))
      = some (.jarr vals) := by
  constructor
  · -- part (a)
    obtain ⟨o, os, rfl⟩ := List.exists_cons_of_ne_nil hobjs
    have hmap : List.map JVal.jobj (o :: os) = JVal.jobj o :: List.map JVal.jobj os := rfl
    have hheadT := renderL_jobj_head o (List.map JVal.jobj os)
    have hlastT := renderL_jobj_last (o :: os) (by simp)
    rw [hmap] at hlastT hwf ⊢
    have hTne := renderL_jobj_ne o (List.map JVal.jobj os)
    have harrwf : jwf (JVal.jarr (JVal.jobj o :: List.map JVal.jobj os)) = true := by
      rw [jwf]
      exact hwf
    have hfacts := renderJ_facts _ harrwf
    have hchainT : List.Chain' okPairJ
        (renderL (JVal.jobj o :: List.map JVal.jobj os)) := (renderL_facts _ hwf).1
    have hstrip : pyStrip (renderL (JVal.jobj o :: List.map JVal.jobj os))
        = renderL (JVal.jobj o :: List.map JVal.jobj os) := by
      apply pyStrip_id
      · intro c hc
        rw [hheadT, Option.some_inj] at hc
        subst hc
        decide
      · intro c hc
        rw [hlastT, Option.some_inj] at hc
        subst hc
        decide
    have hbom : (renderL (JVal.jobj o :: List.map JVal.jobj os)).dropWhile
        (fun c => c = '\uFEFF') = renderL (JVal.jobj o :: List.map JVal.jobj os) := by
      apply dropWhile_id_of_head
      intro c hc
      rw [hheadT, Option.some_inj] at hc
      subst hc
      decide
    have hfix : fix_json_structure (renderL (JVal.jobj o :: List.map JVal.jobj os))
        = remTrailingCommas (fixMissingCommas
            (renderJ (JVal.jarr (JVal.jobj o :: List.map JVal.jobj os)))) := by
      unfold fix_json_structure
      rw [hstrip, hbom]
      have hc1 : ¬ (renderL (JVal.jobj o :: List.map JVal.jobj os)).head? = some '[' := by
        rw [hheadT]
        simp
      have hc2 : ¬ ('[' :: renderL (JVal.jobj o :: List.map JVal.jobj os)).getLast?
          = some ']' := by
        obtain ⟨d, dr, hdr⟩ := List.exists_cons_of_ne_nil hTne
        rw [hdr, List.getLast?_cons_cons, ← hdr, hlastT]
        simp
      simp only [if_neg hc1, if_neg hc2]
      rfl
    rw [hfix]
    have hchainA : List.Chain' okPairJ
        (renderJ (JVal.jarr (JVal.jobj o :: List.map JVal.jobj os))) := hfacts.1
    rw [fixMissingCommas, fixMC_id_go _ (hchainA.imp (fun a b hx => hx.1))]
    have hlastA : (renderJ (JVal.jarr (JVal.jobj o :: List.map JVal.jobj os))).getLast?
        ≠ some ',' := by
      rw [renderJ, show ('[' :: renderL (JVal.jobj o :: List.map JVal.jobj os) ++ [']'])
        = ('[' :: renderL (JVal.jobj o :: List.map JVal.jobj os)) ++ [']'] from by simp,
        List.getLast?_concat]
      simp
    have hrtc := remTC_app_go (renderJ (JVal.jarr (JVal.jobj o :: List.map JVal.jobj os))) []
      (hchainA.imp (fun a b hx => hx.2)) hlastA
    rw [List.append_nil] at hrtc
    rw [remTrailingCommas, hrtc]
    rw [show remTCGo Option.none ([] : Str) = [] from rfl, List.append_nil]
    exact json_loads_render _ harrwf
  · -- part (b)
    have hW : ('[' :: renderL vals ++ [',', ']'] : Str)
        = ('[' :: renderL vals) ++ [',', ']'] := by simp
    have hwhead : ('[' :: renderL vals ++ [',', ']']).head? = some '[' := rfl
    have hwlast : ('[' :: renderL vals ++ [',', ']']).getLast? = some ']' := by
      rw [hW, List.getLast?_append_of_ne_nil _ (by simp)]
      rfl
    have hlfacts := renderL_facts vals hvals
    have hlchainTC : List.Chain' okPairTC ('[' :: renderL vals) := by
      rw [List.chain'_cons']
      exact ⟨fun b hb => okPairTC_bracket_left b, hlfacts.1.imp (fun a b hx => hx.2)⟩
    have hlchainMC : List.Chain' okPairMC ('[' :: renderL vals ++ [',', ']']) := by
      rw [hW, List.chain'_append]
      refine ⟨?_, ?_, ?_⟩
      · rw [List.chain'_cons']
        refine ⟨fun b hb => ?_, hlfacts.1.imp (fun a b hx => hx.1)⟩
        intro hp
        exact absurd hp.1 (by decide)
      · rw [List.chain'_cons]
        exact ⟨by intro hp; exact absurd hp.1 (by decide), List.chain'_singleton _⟩
      · intro x hx y hy
        simp only [Option.mem_def, List.head?_cons, Option.some_inj] at hy
        subst hy
        exact okPairMC_comma_right x
    have hstripW : pyStrip ('[' :: renderL vals ++ [',', ']'])
        = '[' :: renderL vals ++ [',', ']'] := by
      apply pyStrip_id
      · intro c hc
        rw [hwhead, Option.some_inj] at hc
        subst hc
        decide
      · intro c hc
        rw [hwlast, Option.some_inj] at hc
        subst hc
        decide
    have hbomW : ('[' :: renderL vals ++ [',', ']']).dropWhile
        (fun c => c = '\uFEFF') = '[' :: renderL vals ++ [',', ']'] := by
      apply dropWhile_id_of_head
      intro c hc
      rw [hwhead, Option.some_inj] at hc
      subst hc
      decide
    have hfixW : fix_json_structure ('[' :: renderL vals ++ [',', ']'])
        = remTrailingCommas (fixMissingCommas ('[' :: renderL vals ++ [',', ']'])) := by
      unfold fix_json_structure
      rw [hstripW, hbomW]
      simp only [if_pos hwhead, if_pos hwlast]
    rw [hfixW, fixMissingCommas, fixMC_id_go _ hlchainMC]
    have hlastV : ('[' :: renderL vals).getLast? ≠ some ',' := by
      match hr : renderL vals with
      | [] => simp
      | d :: dr =>
        rw [List.getLast?_cons_cons]
        exact getLast_ne_comma_of_lastCl (fun c hc => hlfacts.2.2 c (by rw [hr]; exact hc))
    have hrtc := remTC_app_go ('[' :: renderL vals) [',', ']'] hlchainTC hlastV
    rw [remTrailingCommas, hW, hrtc]
    rw [show remTCGo Option.none ([',', ']'] : Str) = [']'] from rfl]
    have hfin : ('[' :: renderL vals) ++ [']'] = renderJ (JVal.jarr vals) := rfl
    rw [hfin]
    exact json_loads_render _ (by rw [jwf]; exact hvals)

theorem C5_witness :
    ([[("question".data, JVal.jstr "a".data), ("answers".data, JVal.jarr [])],
      [("question".data, JVal.jstr "b".data), ("answers".data, JVal.jarr [])]]
        : List (List (Str × JVal))) ≠ [] ∧
    jwfL (List.map JVal.jobj
      [[("question".data, JVal.jstr "a".data), ("answers".data, JVal.jarr [])],
       [("question".data, JVal.jstr "b".data), ("answers".data, JVal.jarr [])]]) = true ∧
    jwfL [JVal.jobj [("a".data, JVal.jnum "1".data)]] = true ∧
    (json_loads (fix_json_structure (renderL (List.map JVal.jobj
        [[("question".data, JVal.jstr "a".data), ("answers".data, JVal.jarr [])],
         [("question".data, JVal.jstr "b".data), ("answers".data, JVal.jarr [])]])))
      = some (.jarr (List.map JVal.jobj
        [[("question".data, JVal.jstr "a".data), ("answers".data, JVal.jarr [])],
         [("question".data, JVal.jstr "b".data), ("answers".data, JVal.jarr [])]])) ∧
     json_loads (fix_json_structure
        ('[' :: renderL [JVal.jobj [("a".data, JVal.jnum "1".data)]] ++ [',', ']']))
      = some (.jarr [JVal.jobj [("a".data, JVal.jnum "1".data)]])) :=
  ⟨List.cons_ne_nil _ _, by decide, by decide,
    C5_structural_repair
      [[("question".data, JVal.jstr "a".data), ("answers".data, JVal.jarr [])],
       [("question".data, JVal.jstr "b".data), ("answers".data, JVal.jarr [])]]
      [JVal.jobj [("a".data, JVal.jnum "1".data)]]
      (List.cons_ne_nil _ _) (by decide) (by decide)⟩

end DS346
